import Mathlib

/-!
Verification development for the strata configuration-resolution engine
(`strata/config.py`, `strata/core.py`).

The embedding below translates the resolution algorithm of
`ConfigProcessor.process` (config.py lines 243-275), its helpers `satisfy`,
`prune`, `unsatisfy`, `register_result` (lines 280-306), `_build_error`
(lines 231-241), the post-run requirement check of `BaseConfig._process`
(lines 367-383), the provider-discovery part of `ConfigSpec._compute`
(lines 116-144), and the diagnostic leveling `jit_toposort` (lines 406-431).

Conventions:
* values produced by providers are an arbitrary type `Val` (Python values
  are opaque to the engine); Python exceptions are `String` payloads;
* Python dicts keyed by strings become association lists
  `List (String, _)` with first-match lookup (insertion = cons, which
  shadows like dict assignment does for lookups);
* `provider_result_map` is keyed on provider identity in Python
  (Provider defines no eq/hash), embedded as a numeric `id` field;
* the work deque becomes a `List` processed at the head; Python
  `appendleft x` is `x :: q` and `extendleft xs` is `xs.reverse ++ q`
  (extendleft reverses its argument - this is load-bearing below);
* the nondeterministic iteration order of the Python `set`
  `self.req_names` used to seed the queue (line 247) is an explicit
  `reqOrder : List String` parameter.
-/

deriving instance DecidableEq for Except

namespace Strata

/-- Outcome of attempting one provider: `Resolution` subclasses
`Satisfied` / `Unsatisfied` / `Pruned` from config.py lines 62-82.
Each carries `by` (the provider: embedded as its id and its layer type
name, which is what error reporting reads) and `value` (the produced
value for Satisfied, the exception for Unsatisfied, the reason string
for Pruned). -/
inductive Resolution (Val : Type) where
  | satisfied (byId : Nat) (byLayer : String) (value : Val)
  | unsatisfied (byId : Nat) (byLayer : String) (error : String)
  | pruned (byId : Nat) (byLayer : String) (reason : String)
  deriving DecidableEq

/-- The provider whose outcome this is (`Resolution.by` in the source). -/
def Resolution.resBy {Val : Type} : Resolution Val → Nat
  | .satisfied i _ _ => i
  | .unsatisfied i _ _ => i
  | .pruned i _ _ => i

/-- A bound provider (core.py `Provider` after `get_bound`): one layer
instance's producing function for one variable, carrying the reflected
dependency names.  `func` receives the current values of `depNames`
looked up by name from the value map (core.py `inject`); a Python
exception is an `Except.error`.  `id` stands for Python object identity
(the `provider_result_map` dict key). -/
structure BoundProvider (Val : Type) where
  id : Nat
  layerName : String
  varName : String
  depNames : List String
  func : List (Option Val) → Except String Val

/-- First-match association lookup (Python dict lookup; later entries in
our lists are older, since insertion conses). -/
def alookup {β : Type} (k : String) : List (String × β) → Option β
  | [] => none
  | e :: es => if e.1 = k then some e.2 else alookup k es

/-- Membership test for a Nat-keyed association list (`provider_result_map`). -/
def hasKey {β : Type} (k : Nat) : List (Nat × β) → Bool
  | [] => false
  | e :: es => if e.1 = k then true else hasKey k es

/-- `d.setdefault(k, []).append(x)` on a string-keyed dict of lists
(config.py line 304 for `name_result_map`, lines 132/134 for
`var_provider_map` / `var_consumer_map`): append `x` to the existing
entry for `k` (keys are unique in a dict, so updating the first match is
the dict update), or append a new `(k, [x])` entry at the end. -/
def histAdd {β : Type} : List (String × List β) → String → β → List (String × List β)
  | [], k, x => [(k, [x])]
  | e :: es, k, x =>
    if e.1 = k then (e.1, e.2 ++ [x]) :: es else e :: histAdd es k x

/-- Mutable state of one `ConfigProcessor` run (config.py lines 194-197
plus the work deque of `process` and a log of provider invocations).
`trace` records the id of every provider whose `func` is called, in call
order; it is bookkeeping added by the embedding to state invocation
properties, and is written exactly when line 264 (`inject(cp.func, nvm)`)
runs. -/
structure ProcState (Val : Type) where
  queue : List (BoundProvider Val)
  nvm : List (String × Val)
  nsm : List (String × Nat)
  nrm : List (String × List (Resolution Val))
  prm : List (Nat × Resolution Val)
  trace : List Nat

/-- `self.name_value_map` membership (`is_satisfied`, config.py 277-278). -/
def nvmContains {Val : Type} (s : ProcState Val) (v : String) : Bool :=
  (alookup v s.nvm).isSome

/-- `provider in self.provider_result_map` (config.py line 250). -/
def prmContains {Val : Type} (s : ProcState Val) (pid : Nat) : Bool :=
  hasKey pid s.prm

/-- `register_result` (config.py lines 303-306): append to the variable's
history and overwrite the provider's single outcome slot. -/
def registerResult {Val : Type} (p : BoundProvider Val) (r : Resolution Val)
    (s : ProcState Val) : ProcState Val :=
  { s with nrm := histAdd s.nrm p.varName r, prm := (p.id, r) :: s.prm }

/-- `prune` (config.py lines 291-295). -/
def prune {Val : Type} (p : BoundProvider Val) (reason : String)
    (s : ProcState Val) : ProcState Val :=
  registerResult p (.pruned p.id p.layerName reason) s

/-- `unsatisfy` (config.py lines 297-301). -/
def unsatisfy {Val : Type} (p : BoundProvider Val) (e : String)
    (s : ProcState Val) : ProcState Val :=
  registerResult p (.unsatisfied p.id p.layerName e) s

/-- `satisfy` (config.py lines 280-289): write the value and the
satisfier, prune every provider for the same variable that sits after
this one in the variable's priority-ordered provider list
(`bps[bps.index(provider) + 1:]`; list.index compares by identity, so we
search by id - providers reaching here always come from `bpm`), then
register the Satisfied outcome (the source registers it after the
prunes). -/
def satisfy {Val : Type} (bpm : String → List (BoundProvider Val))
    (p : BoundProvider Val) (v : Val) (s : ProcState Val) : ProcState Val :=
  let s1 : ProcState Val :=
    { s with nvm := (p.varName, v) :: s.nvm, nsm := (p.varName, p.id) :: s.nsm }
  let bps := bpm p.varName
  let prunedBps := bps.drop (bps.findIdx (fun q => q.id = p.id) + 1)
  let s2 := prunedBps.foldl (fun st q => prune q "<already satisfied>" st) s1
  registerResult p (.satisfied p.id p.layerName v) s2

/-- Fatal errors escaping `ConfigProcessor.process`:
`exhaustedFallback` is the `ValueError(self._build_error(dep_name))` of
config.py line 260, carried structurally (the variable, its consumer
names from `var_consumer_map`, and the variable's outcome history whose
entries hold each attempt's layer name and failure detail, exactly what
`_build_error` lines 231-241 prints); `validatorError` is an exception
raised by `Variable.process_value` (core.py lines 40-43) on line 270,
which sits outside the try/except of lines 263-266 and therefore
propagates out of `process` uncaught. -/
inductive RunErr (Val : Type) where
  | exhaustedFallback (varName : String) (consumers : List String)
      (attempts : List (Resolution Val))
  | validatorError (e : String)
  deriving DecidableEq

/-- `_build_error` (config.py lines 231-241), structurally. -/
def buildError {Val : Type} (vcm : String → List String) (s : ProcState Val)
    (varName : String) : RunErr Val :=
  .exhaustedFallback varName (vcm varName) ((alookup varName s.nrm).getD [])

/-- Result of one iteration of the work-list loop: continue with a new
state, or raise out of `process` (the raising state is kept so the log
can be inspected). -/
inductive StepOut (Val : Type) where
  | stepped (s : ProcState Val)
  | raised (s : ProcState Val) (e : RunErr Val)

/-- The `for dep_name in unsat_deps:` body of config.py lines 257-261:
for each unmet dependency in order, fail fast when every known provider
for it already has a recorded outcome
(`len(nrm.get(dep_name, [])) >= len(bpm[dep_name])`), otherwise
`to_proc.extendleft(bpm[dep_name])` - which pushes the providers onto
the front in REVERSED list order (deque.extendleft semantics). -/
def pushDeps {Val : Type} (bpm : String → List (BoundProvider Val))
    (vcm : String → List String) :
    List String → ProcState Val → StepOut Val
  | [], s => .stepped s
  | d :: ds, s =>
    if ((alookup d s.nrm).getD []).length ≥ (bpm d).length then
      .raised s (buildError vcm s d)
    else
      pushDeps bpm vcm ds { s with queue := (bpm d).reverse ++ s.queue }

/-- One iteration of the `while to_proc:` loop of `process`
(config.py lines 248-271), for a popped head `cp` and remaining queue
`rest`:
skip if the provider already has an outcome (line 250) or its variable a
value (line 252); with unmet dependencies, repush `cp`
(`to_proc.appendleft(cp)`, line 256) and run `pushDeps`; otherwise
invoke the function (line 264, logged in `trace`), record `Unsatisfied`
on failure (line 266), and on success run the variable's validator
(line 270, OUTSIDE the try) and `satisfy` with the processed value. -/
def step {Val : Type} (bpm : String → List (BoundProvider Val))
    (vcm : String → List String)
    (validators : String → Option (Val → Except String Val))
    (s : ProcState Val) (cp : BoundProvider Val)
    (rest : List (BoundProvider Val)) : StepOut Val :=
  if prmContains s cp.id then .stepped { s with queue := rest }
  else if nvmContains s cp.varName then .stepped { s with queue := rest }
  else
    let unsat := cp.depNames.filter (fun d => !(nvmContains s d))
    if unsat.isEmpty then
      let s1 : ProcState Val := { s with queue := rest, trace := s.trace ++ [cp.id] }
      match cp.func (cp.depNames.map (fun d => alookup d s.nvm)) with
      | .error e => .stepped (unsatisfy cp e s1)
      | .ok value =>
        match validators cp.varName with
        | none => .stepped (satisfy bpm cp value s1)
        | some f =>
          match f value with
          | .error e => .raised s1 (.validatorError e)
          | .ok processedValue => .stepped (satisfy bpm cp processedValue s1)
    else
      pushDeps bpm vcm unsat { s with queue := cp :: rest }

/-- The `while to_proc:` loop of `process` (config.py lines 248-271),
fuel-indexed: `none` means the fuel ran out before the loop finished;
`some (s, none)` means the queue emptied in state `s`;
`some (s, some e)` means the run raised `e` in state `s`. -/
def processLoop {Val : Type} (bpm : String → List (BoundProvider Val))
    (vcm : String → List String)
    (validators : String → Option (Val → Except String Val)) :
    Nat → ProcState Val → Option (ProcState Val × Option (RunErr Val))
  | 0, _ => none
  | n + 1, s =>
    match s.queue with
    | [] => some (s, none)
    | cp :: rest =>
      match step bpm vcm validators s cp rest with
      | .stepped s1 => processLoop bpm vcm validators n s1
      | .raised s1 e => some (s1, some e)

/-- The post-loop sweep of `process` (config.py lines 273-275): every
bound provider without an outcome is pruned with reason `<no refs>`. -/
def finalPrune {Val : Type} (bpl : List (BoundProvider Val))
    (s : ProcState Val) : ProcState Val :=
  bpl.foldl (fun st bp => if prmContains st bp.id then st else prune bp "<no refs>" st) s

/-- `ConfigProcessor.process` in full (config.py lines 243-275): run the
work-list loop from the given state, then the final prune sweep (only
when the loop completed without raising). -/
def processRun {Val : Type} (bpm : String → List (BoundProvider Val))
    (vcm : String → List String)
    (validators : String → Option (Val → Except String Val))
    (bpl : List (BoundProvider Val)) (fuel : Nat) (s : ProcState Val) :
    Option (ProcState Val × Option (RunErr Val)) :=
  (processLoop bpm vcm validators fuel s).map
    (fun r =>
      match r.2 with
      | none => (finalPrune bpl r.1, none)
      | some e => (r.1, some e))

/-- The synthetic provider for the reserved name `config`
(config.py lines 224-227): no dependencies, always returns the
configuration object (here an opaque value `cfg`). -/
def configProvider {Val : Type} (cfgId : Nat) (cfg : Val) : BoundProvider Val :=
  ⟨cfgId, "StrataConfigLayer", "config", [], fun _ => .ok cfg⟩

/-- `bpm['config'] = [config_provider]` (config.py line 227): dict
assignment overriding the `config` slot of the bound-provider map. -/
def withConfig {Val : Type} (bpm : String → List (BoundProvider Val))
    (cp : BoundProvider Val) : String → List (BoundProvider Val) :=
  fun v => if v = cp.varName then [cp] else bpm v

/-- Initial run state built by `ConfigProcessor.__init__` /
`_init_providers` (config.py lines 189-229) and the queue seeding of
`process` line 247: empty maps, the config provider pre-satisfied
(`self.satisfy(config_provider, self.config)`, line 228), and the queue
seeded with the bound providers of every required variable in the order
`reqOrder` in which Python happens to iterate the `req_names` set.
`bpm` must already contain the config slot (`withConfig`). -/
def initState {Val : Type} (bpm : String → List (BoundProvider Val))
    (cfgProv : BoundProvider Val) (cfg : Val) (reqOrder : List String) :
    ProcState Val :=
  let s1 := satisfy bpm cfgProv cfg ⟨[], [], [], [], [], []⟩
  { s1 with queue := (reqOrder.map bpm).flatten }

/-- Insertion sort step for strings (Python `sorted` on string sets is
lexicographic). -/
def insertSorted (x : String) : List String → List String
  | [] => [x]
  | y :: ys => if x ≤ y then x :: y :: ys else y :: insertSorted x ys

/-- Lexicographically sorted list of a list's distinct elements
(`sorted(some_set)` in Python). -/
def sortStrings (l : List String) : List String :=
  l.dedup.foldr insertSorted []

/-- Errors surfacing from `BaseConfig._process` (config.py 367-383):
either a `RunErr` propagating out of `process`, or the
`ConfigException('could not resolve: ...')` of line 380 naming the
sorted missing requirement names. -/
inductive ConfigErr (Val : Type) where
  | runErr (e : RunErr Val)
  | configException (missing : List String)
  deriving DecidableEq

/-- The requirement names of a processor: `self.requirements =
self.config._config_spec.variables` and `self.req_names` (config.py
lines 191-192) - always the full declared variable set; there is no
parameter to restrict it. -/
def reqNamesOf (varNames : List String) : List String := varNames

/-- The tail of `BaseConfig._process` (config.py lines 371-383) applied
to a finished `processRun`: an uncaught run error propagates; otherwise
`_unresolved = req_names - set(result_map)` and a nonempty remainder
raises `ConfigException` naming the sorted missing variables; on success
the result map (`name_value_map`) is returned. -/
def baseFinish {Val : Type} (varNames : List String)
    (run : Option (ProcState Val × Option (RunErr Val))) :
    Option (Except (ConfigErr Val) (List (String × Val))) :=
  run.map (fun r =>
    match r.2 with
    | some e => .error (.runErr e)
    | none =>
      let missing := sortStrings ((reqNamesOf varNames).filter
        (fun v => !(nvmContains r.1 v)))
      if missing.isEmpty then .ok r.1.nvm else .error (.configException missing))

/-! ### ConfigSpec construction: the provider-discovery closure
(`ConfigSpec._compute`, config.py lines 116-144). -/

/-- An unbound provider as recorded by spec construction
(`layer._get_provider(var)`, core.py lines 52-61): the layer's name,
the variable name, and the reflected dependency names. -/
structure UProvider where
  layerName : String
  varName : String
  depNames : List String
  deriving DecidableEq

/-- A layer at spec-construction time: for a variable name, either the
dependency names of the provider it contributes, or `none` for
`NotProvidable` (core.py lines 54-59). -/
abbrev LayerFun := String → Option (List String)

/-- Errors raised by `ConfigSpec._compute` (config.py lines 139-142):
`noProviders` is the line-140 `UnresolvedDependency` for a declared
variable no layer provides; `unresolvedDeps` is the line-142
`UnresolvedDependency` naming every discovered dependency name. -/
inductive SpecErr where
  | noProviders (varName : String)
  | unresolvedDeps (names : List String)
  deriving DecidableEq

/-- Accumulated state of the `_compute` loop: `known` is the key set of
`name_var_map` (declared names plus names marked by
`name_var_map[dn] = None`, line 137), `unresolved` the discovered-name
list (line 136), `vpm` / `vcm` the provider and consumer maps. -/
structure ComputeSt where
  known : List String
  unresolved : List String
  vpm : List (String × List UProvider)
  vcm : List (String × List UProvider)
  deriving DecidableEq

/-- The `for layer in layers:` body for one variable (config.py lines
127-138): each providing layer appends its provider to
`var_provider_map[var]` and, for each dependency name in order, appends
the provider to `var_consumer_map[dn]` and records unknown names in
`unresolved` (the `to_proc.append(dn)` that would grow the closure is
commented out in the source, so discovered names are recorded but never
themselves processed). -/
def procVarLayers (layers : List (String × LayerFun)) (v : String)
    (st : ComputeSt) : ComputeSt :=
  layers.foldl
    (fun st1 layer =>
      match layer.2 v with
      | none => st1
      | some deps =>
        let p : UProvider := ⟨layer.1, v, deps⟩
        deps.foldl
          (fun st2 dn =>
            let st3 := { st2 with vcm := histAdd st2.vcm dn p }
            if dn ∈ st3.known then st3
            else { st3 with unresolved := st3.unresolved ++ [dn],
                            known := st3.known ++ [dn] })
          { st1 with vpm := histAdd st1.vpm v p })
    st

/-- The `while to_proc:` loop of `_compute` (config.py lines 124-140).
Python pops variables from the END of `to_proc`, so the caller passes
the declared list reversed; a variable that gained no provider raises
the line-140 error immediately. -/
def computeLoop (layers : List (String × LayerFun)) :
    List String → ComputeSt → Except SpecErr ComputeSt
  | [], st => .ok st
  | v :: vs, st =>
    let st1 := procVarLayers layers v st
    if st1.vpm.any (fun e => e.1 = v) then computeLoop layers vs st1
    else .error (.noProviders v)

/-- `ConfigSpec._compute`, lines 116-142 (through the unresolved-deps
check): process every declared variable name, then fail when any
discovered dependency name exists (`if unresolved:`, line 141). -/
def computeSpec (varNames : List String) (layers : List (String × LayerFun)) :
    Except SpecErr ComputeSt := do
  let st ← computeLoop layers varNames.reverse ⟨varNames, [], [], []⟩
  if st.unresolved.isEmpty then .ok st else .error (.unresolvedDeps st.unresolved)

/-! ### Diagnostic leveling (`jit_toposort`, config.py lines 406-431). -/

/-- Input of `jit_toposort`: `{item: set([deps])}` as an association
list with distinct keys. -/
abbrev DepMap := List (String × Finset String)

/-- `orig_dep_map[k]` lookups performed by the display-leveling loop.
Inside the loop every looked-up item is a key of the original map, so
the default is never reached on the paths the theorems traverse. -/
def origDeps (dm : DepMap) (k : String) : Finset String :=
  (alookup k dm).getD ∅

/-- Key set of a dependency map (`set(dep_map)`). -/
def keysOf (dm : DepMap) : Finset String :=
  dm.foldr (fun e acc => insert e.1 acc) ∅

/-- `set.union(*dep_map.values())`. -/
def valsUnion (dm : DepMap) : Finset String :=
  dm.foldr (fun e acc => e.2 ∪ acc) ∅

/-- `cur = set([item for item, deps in remaining.items() if not deps])`
(config.py line 416). -/
def curOf (remaining : DepMap) : Finset String :=
  (remaining.filter (fun e => e.2 = ∅)).foldr (fun e acc => insert e.1 acc) ∅

/-- Failures of `jit_toposort`: `cycleErr` is the line-429 `ValueError`
on unresolvable dependencies; `keyErr` is the `KeyError` the source
raises on its first iteration when `extras` is nonempty, because
`orig_dep_map[c]` (line 421) lacks the extra items that were only added
to the working copy (line 412). -/
inductive TopoErr where
  | keyErr
  | cycleErr
  deriving DecidableEq

set_option linter.unusedVariables false in
/-- The `while remaining:` loop of `jit_toposort` (config.py lines
415-425): extract `cur` (items with no remaining deps), mark them ready,
emit as the next level only the ready items consumed by something in
`cur` (`cur_used`, lines 420-422), and remove `cur` from all remaining
dependency sets.  Returns the accumulated levels, the leftover `ready`
set, and the final `remaining` map (nonempty exactly when the loop broke
on a cycle). -/
def jitLoop (orig : DepMap) (remaining : DepMap) (ready : Finset String)
    (ret : List (Finset String)) :
    List (Finset String) × Finset String × DepMap :=
  let cur := curOf remaining
  if hcur : cur = ∅ then (ret, ready, remaining)
  else
    let ready1 := ready ∪ cur
    let curUsed := ready1.filter
      (fun r => (cur.filter (fun c => r ∈ origDeps orig c)).Nonempty)
    jitLoop orig
      ((remaining.filter (fun e => !(decide (e.1 ∈ cur)))).map
        (fun e => (e.1, e.2 \ cur)))
      (ready1 \ curUsed) (ret ++ [curUsed])
termination_by remaining.length
decreasing_by
  simp only [List.length_map]
  have hfold : ∀ (l : DepMap) (x : String),
      x ∈ l.foldr (fun e acc => insert e.1 acc) (∅ : Finset String) →
      ∃ e ∈ l, e.1 = x := by
    intro l
    induction l with
    | nil => intro x hx; simp at hx
    | cons h t ih =>
      intro x hx
      simp only [List.foldr_cons, Finset.mem_insert] at hx
      rcases hx with hx | hx
      · exact ⟨h, List.mem_cons_self h t, hx.symm⟩
      · obtain ⟨e, he, hex⟩ := ih x hx
        exact ⟨e, List.mem_cons_of_mem h he, hex⟩
  obtain ⟨x, hx⟩ := Finset.nonempty_iff_ne_empty.mpr hcur
  obtain ⟨e, hel, hex⟩ := hfold _ x hx
  have hrem : e ∈ remaining := (List.mem_filter.mp hel).1
  refine List.length_filter_lt_length_iff_exists.mpr ⟨e, hrem, ?_⟩
  simp only [Bool.not_eq_true, Bool.not_eq_false]
  simpa [hex] using hx

/-- `jit_toposort` (config.py lines 406-431): empty input returns `[]`;
a nonempty `extras` set crashes with a `KeyError` at the first
`orig_dep_map[c]` lookup (every first-iteration `any` scans only
empty-dependency items and so reaches an extra); otherwise run the
leveling loop, dump the leftover ready items as a final level
(line 426-427), fail with the cycle error when `remaining` survives
(line 428-429), and drop the (always empty) first level
(`return ret[1:]`, line 430). -/
def jitToposort (dm : DepMap) : Except TopoErr (List (Finset String)) :=
  if dm.isEmpty then .ok []
  else if valsUnion dm \ keysOf dm = ∅ then
    let r := jitLoop dm dm ∅ []
    let ret1 := if r.2.1 = ∅ then r.1 else r.1 ++ [r.2.1]
    if r.2.2.isEmpty then .ok (ret1.drop 1) else .error .cycleErr
  else .error .keyErr

/-! ### Invariants and measures used by the claim theorems. -/

/-- Every invocation is logged once and every logged provider has a
recorded outcome.  Holds of the initial state (empty trace) and is
preserved by the loop; the `prm` half is what makes a second invocation
impossible (the line-250 guard). -/
def TraceInv {Val : Type} (s : ProcState Val) : Prop :=
  s.trace.Nodup ∧ ∀ pid ∈ s.trace, prmContains s pid = true

/-- Invocation log of a finished run. -/
def traceOf {Val : Type} (r : Option (ProcState Val × Option (RunErr Val))) :
    Option (List Nat) :=
  r.map (fun x => x.1.trace)

/-- A provider is discarded by the line 250/252 guards of `process`:
it already has an outcome or its variable already has a value. -/
def skippableB {Val : Type} (s : ProcState Val) (p : BoundProvider Val) : Bool :=
  prmContains s p.id || nvmContains s p.varName

/-- Providers of the global list still without an outcome: strictly
decreases at every invocation step. -/
def measureA {Val : Type} (bpl : List (BoundProvider Val)) (s : ProcState Val) : Nat :=
  (bpl.filter (fun p => !(prmContains s p.id))).length

/-- Queue suffix starting at the first non-discardable provider. -/
def pendingQ {Val : Type} (s : ProcState Val) : List (BoundProvider Val) :=
  s.queue.dropWhile (skippableB s)

/-- Rank (plus one) of the first non-discardable provider's variable:
strictly decreases at every dependency-push step. -/
def measureB {Val : Type} (rank : String → Nat) (s : ProcState Val) : Nat :=
  match pendingQ s with
  | [] => 0
  | p :: _ => rank p.varName + 1

/-- Number of discardable providers at the front of the queue: strictly
decreases at every discard step. -/
def measureC {Val : Type} (s : ProcState Val) : Nat :=
  (s.queue.takeWhile (skippableB s)).length

/-- Well-formedness of a processor's provider tables, as established by
`ConfigSpec` construction and `_init_providers`: `bpm` lists a
variable's own providers, provider ids are object identities (unique
within and across slots), every provider is in the global
`bound_provider_list`, and `rank` witnesses acyclicity of the
variable-dependency graph (a topological height: each dependency of a
variable's provider has strictly smaller rank). -/
structure ProcHyps {Val : Type} (bpm : String → List (BoundProvider Val))
    (bpl : List (BoundProvider Val)) (rank : String → Nat) : Prop where
  hvar : ∀ v p, p ∈ bpm v → p.varName = v
  hrank : ∀ v p d, p ∈ bpm v → d ∈ p.depNames → rank d < rank v
  hbl : ∀ v p, p ∈ bpm v → p ∈ bpl
  hid : ∀ v w p q, p ∈ bpm v → q ∈ bpm w → p.id = q.id → v = w
  hnodup : ∀ v, ((bpm v).map (fun p => p.id)).Nodup

/-- Queue elements always come from the bound-provider map slot of
their own variable. -/
def QueueInv {Val : Type} (bpm : String → List (BoundProvider Val))
    (s : ProcState Val) : Prop :=
  ∀ p ∈ s.queue, p ∈ bpm p.varName

/-- Every provider with a recorded outcome contributed an entry to its
variable's history, so the history is at least as long as the number of
that variable's providers already carrying outcomes.  This is what makes
the line-258 fail-fast check sound: if the check passes, some provider
of the dependency still has no outcome. -/
def CountInv {Val : Type} (bpm : String → List (BoundProvider Val))
    (s : ProcState Val) : Prop :=
  ∀ d, (bpm d).countP (fun q => prmContains s q.id) ≤
    ((alookup d s.nrm).getD []).length

/-- Invariant carried by the termination proof. -/
def StateInv {Val : Type} (bpm : String → List (BoundProvider Val))
    (s : ProcState Val) : Prop :=
  QueueInv bpm s ∧ CountInv bpm s

/-! ### Concrete configuration T: the test_basic.py scenario
(variables `var_a`..`var_d` of spec scenario 1 / claim C4; layers
FirstLayer, SecondLayer, ThirdLayer). -/

/-- FirstLayer.var_a: returns 0 (test_basic.py lines 24-25). -/
def pL1a : BoundProvider Int := ⟨1, "FirstLayer", "var_a", [], fun _ => .ok 0⟩

/-- ThirdLayer.var_a: returns -1, annotated `should never get here`
(test_basic.py lines 45-47). -/
def pL3a : BoundProvider Int := ⟨2, "ThirdLayer", "var_a", [], fun _ => .ok (-1)⟩

/-- FirstLayer.var_b: raises on falsy var_a, else 1 (lines 27-31). -/
def pL1b : BoundProvider Int :=
  ⟨3, "FirstLayer", "var_b", ["var_a"],
    fun args =>
      match args with
      | [some a] => if a = 0 then .error "nope" else .ok 1
      | _ => .error "missing dependency"⟩

/-- SecondLayer.var_b: returns 2 unconditionally (lines 38-39). -/
def pL2b : BoundProvider Int := ⟨4, "SecondLayer", "var_b", [], fun _ => .ok 2⟩

/-- FirstLayer.var_c: returns 3 (lines 33-34). -/
def pL1c : BoundProvider Int := ⟨5, "FirstLayer", "var_c", [], fun _ => .ok 3⟩

/-- SecondLayer.var_d: returns 4 given var_b, var_c (lines 41-42). -/
def pL2d : BoundProvider Int :=
  ⟨6, "SecondLayer", "var_d", ["var_b", "var_c"],
    fun args =>
      match args with
      | [some _, some _] => .ok 4
      | _ => .error "missing dependency"⟩

/-- The synthetic config provider of scenario T. -/
def cfgT : BoundProvider Int := configProvider 9 0

/-- Bound-provider map of scenario T: per variable, providers in layer
priority order `[FirstLayer, SecondLayer, ThirdLayer]`. -/
def bpmT : String → List (BoundProvider Int) := fun v =>
  if v = "var_a" then [pL1a, pL3a]
  else if v = "var_b" then [pL1b, pL2b]
  else if v = "var_c" then [pL1c]
  else if v = "var_d" then [pL2d]
  else if v = "config" then [cfgT]
  else []

/-- Consumer names of scenario T (`var_consumer_map` projected to
`var_name` as `_build_error` reads it). -/
def vcmT : String → List String := fun v =>
  if v = "var_a" then ["var_b"]
  else if v = "var_b" then ["var_d"]
  else if v = "var_c" then ["var_d"]
  else []

/-- No variable of scenario T has a validator. -/
def validatorsT : String → Option (Int → Except String Int) := fun _ => none

/-- `bound_provider_list` of scenario T. -/
def bplT : List (BoundProvider Int) := [pL1a, pL3a, pL1b, pL2b, pL1c, pL2d, cfgT]

/-- Initial state of scenario T for the seed order that begins with
`var_b`'s providers - one of the possible iteration orders of the
`req_names` set (config.py line 247). -/
def initT : ProcState Int :=
  initState bpmT cfgT 0 ["var_b", "var_a", "var_c", "var_d"]

/-! ### Concrete configuration V (claim C6): variable `v` with a
failing higher-indexed provider and a consumer, exposing a double
outcome. -/

/-- L1's provider for `v`: succeeds with 7. -/
def pV1 : BoundProvider Int := ⟨11, "L1", "v", [], fun _ => .ok 7⟩

/-- L2's provider for `v`: always fails. -/
def pV2 : BoundProvider Int := ⟨12, "L2", "v", [], fun _ => .error "boom"⟩

/-- LC's provider for `c`, depending on `v`. -/
def pVc : BoundProvider Int :=
  ⟨13, "LC", "c", ["v"],
    fun args =>
      match args with
      | [some _] => .ok 1
      | _ => .error "missing dependency"⟩

/-- The synthetic config provider of scenario V. -/
def cfgV : BoundProvider Int := configProvider 19 0

/-- Bound-provider map of scenario V. -/
def bpmV : String → List (BoundProvider Int) := fun v =>
  if v = "v" then [pV1, pV2]
  else if v = "c" then [pVc]
  else if v = "config" then [cfgV]
  else []

/-- Consumer names of scenario V. -/
def vcmV : String → List String := fun v => if v = "v" then ["c"] else []

/-- No validators in scenario V. -/
def validatorsV : String → Option (Int → Except String Int) := fun _ => none

/-- `bound_provider_list` of scenario V. -/
def bplV : List (BoundProvider Int) := [pV1, pV2, pVc, cfgV]

/-- Initial state of scenario V, seeded with `c` before `v`. -/
def initV : ProcState Int := initState bpmV cfgV 0 ["c", "v"]

/-! ### Concrete configuration Z (claim C2 / spec scenario 4): variable
`z` with a validator rejecting negatives, a provider returning -1 and a
fallback returning 5. -/

/-- L1's provider for `z`: returns -1. -/
def pZ1 : BoundProvider Int := ⟨21, "L1", "z", [], fun _ => .ok (-1)⟩

/-- L2's fallback provider for `z`: returns 5. -/
def pZ2 : BoundProvider Int := ⟨22, "L2", "z", [], fun _ => .ok 5⟩

/-- The synthetic config provider of scenario Z. -/
def cfgZ : BoundProvider Int := configProvider 29 0

/-- Bound-provider map of scenario Z. -/
def bpmZ : String → List (BoundProvider Int) := fun v =>
  if v = "z" then [pZ1, pZ2]
  else if v = "config" then [cfgZ]
  else []

/-- Consumer names of scenario Z (no consumers). -/
def vcmZ : String → List String := fun _ => []

/-- The validator of `z`: rejects negative numbers
(`Variable.process_value`, core.py lines 40-43). -/
def validatorsZ : String → Option (Int → Except String Int) := fun v =>
  if v = "z" then some (fun x => if x < 0 then .error "negative" else .ok x)
  else none

/-- `bound_provider_list` of scenario Z. -/
def bplZ : List (BoundProvider Int) := [pZ1, pZ2, cfgZ]

/-- Initial state of scenario Z. -/
def initZ : ProcState Int := initState bpmZ cfgZ 0 ["z"]

/-! ### Concrete configuration X (claim C3 / spec scenario 2): required
variable `x` with a single always-failing provider, no fallback and no
consumers. -/

/-- The single, always-failing provider of `x`. -/
def pX : BoundProvider Int := ⟨31, "L1", "x", [], fun _ => .error "boom"⟩

/-- The synthetic config provider of scenario X. -/
def cfgX : BoundProvider Int := configProvider 39 0

/-- Bound-provider map of scenario X. -/
def bpmX : String → List (BoundProvider Int) := fun v =>
  if v = "x" then [pX]
  else if v = "config" then [cfgX]
  else []

/-- Consumer names of scenario X: `x` has no consumers. -/
def vcmX : String → List String := fun _ => []

/-- No validators in scenario X. -/
def validatorsX : String → Option (Int → Except String Int) := fun _ => none

/-- `bound_provider_list` of scenario X. -/
def bplX : List (BoundProvider Int) := [pX, cfgX]

/-- Initial state of scenario X. -/
def initX : ProcState Int := initState bpmX cfgX 0 ["x"]

/-! ### Concrete configuration Y (witness for the amended C3): `y`
depends on `x`, whose single provider always fails, so the popped
consumer hits the line-258 fail-fast check. -/

/-- The single, always-failing provider of `x` in scenario Y. -/
def pYx : BoundProvider Int := ⟨41, "L1", "x", [], fun _ => .error "boom"⟩

/-- `y`'s provider, depending on `x`. -/
def pYy : BoundProvider Int :=
  ⟨42, "L1", "y", ["x"],
    fun args =>
      match args with
      | [some _] => .ok 1
      | _ => .error "missing dependency"⟩

/-- The synthetic config provider of scenario Y. -/
def cfgY : BoundProvider Int := configProvider 49 0

/-- Bound-provider map of scenario Y. -/
def bpmY : String → List (BoundProvider Int) := fun v =>
  if v = "x" then [pYx]
  else if v = "y" then [pYy]
  else if v = "config" then [cfgY]
  else []

/-- Consumer names of scenario Y: `x` is consumed by `y`. -/
def vcmY : String → List String := fun v => if v = "x" then ["y"] else []

/-- No validators in scenario Y. -/
def validatorsY : String → Option (Int → Except String Int) := fun _ => none

/-- The run state of scenario Y at the moment `y`'s provider is popped:
`x`'s provider has been invoked and failed (this is the state
`processLoop` reaches from `initState bpmY cfgY 0 ["x", "y"]` after one
iteration). -/
def midY : ProcState Int :=
  ⟨[pYy], [("config", 0)], [("config", 49)],
    [("config", [.satisfied 49 "StrataConfigLayer" 0]),
     ("x", [.unsatisfied 41 "L1" "boom"])],
    [(41, .unsatisfied 41 "L1" "boom"), (49, .satisfied 49 "StrataConfigLayer" 0)],
    [41]⟩

/-! ### Concrete configuration for C5: a discovered dependency name the
layer could provide. -/

/-- A layer providing `v` (depending on `w`) and also able to provide
`w` (no dependencies). -/
def layerC5 : LayerFun := fun v =>
  if v = "v" then some ["w"]
  else if v = "w" then some []
  else none

/-! ### Concrete cyclic configuration (claim C8 counterexample):
`v` and `w` depend on each other. -/

/-- `v`'s provider, depending on `w`. -/
def pCv : BoundProvider Int := ⟨51, "L1", "v", ["w"], fun _ => .ok 1⟩

/-- `w`'s provider, depending on `v`. -/
def pCw : BoundProvider Int := ⟨52, "L1", "w", ["v"], fun _ => .ok 2⟩

/-- The synthetic config provider of the cyclic configuration. -/
def cfgC : BoundProvider Int := configProvider 59 0

/-- Bound-provider map of the cyclic configuration. -/
def bpmC : String → List (BoundProvider Int) := fun v =>
  if v = "v" then [pCv]
  else if v = "w" then [pCw]
  else if v = "config" then [cfgC]
  else []

/-- Consumer names of the cyclic configuration. -/
def vcmC : String → List String := fun v =>
  if v = "v" then ["w"] else if v = "w" then ["v"] else []

/-- No validators in the cyclic configuration. -/
def validatorsC : String → Option (Int → Except String Int) := fun _ => none

/-- Initial state of the cyclic configuration. -/
def initC : ProcState Int := initState bpmC cfgC 0 ["v", "w"]

/-- Divergence of the processing loop on the concrete cyclic
configuration: no amount of fuel makes the run from `initC` complete. -/
def cyclicRunDiverges : Prop :=
  ∀ n : Nat, processLoop bpmC vcmC validatorsC n initC = none

/-- The queue-shape invariant of the diverging cyclic run: the maps
never change after initialization and the queue always holds another
copy of one of the two providers. -/
def CycInv (s : ProcState Int) : Prop :=
  s.nvm = [("config", 0)] ∧
  s.prm = [(59, .satisfied 59 "StrataConfigLayer" 0)] ∧
  s.nrm = [("config", [.satisfied 59 "StrataConfigLayer" 0])] ∧
  s.queue ≠ [] ∧ ∀ p ∈ s.queue, p = pCv ∨ p = pCw

/-! ### Concrete acyclic configuration (witness for the amended C8). -/

/-- The single provider of `u`. -/
def pAu : BoundProvider Int := ⟨61, "L1", "u", [], fun _ => .ok 5⟩

/-- The synthetic config provider of the acyclic witness configuration. -/
def cfgA : BoundProvider Int := configProvider 69 0

/-- Bound-provider map of the acyclic witness configuration. -/
def bpmA : String → List (BoundProvider Int) := fun v =>
  if v = "u" then [pAu]
  else if v = "config" then [cfgA]
  else []

/-- Consumer names of the acyclic witness configuration. -/
def vcmA : String → List String := fun _ => []

/-- No validators in the acyclic witness configuration. -/
def validatorsA : String → Option (Int → Except String Int) := fun _ => none

/-- `bound_provider_list` of the acyclic witness configuration. -/
def bplA : List (BoundProvider Int) := [pAu, cfgA]

/-- Initial state of the acyclic witness configuration. -/
def initA : ProcState Int := initState bpmA cfgA 0 ["u"]

/-- A two-element dependency cycle for the leveling utility. -/
def cyc2 : DepMap := [("a", {"b"}), ("b", {"a"})]

/-- A two-element acyclic dependency map for the leveling utility:
`b` depends on `a`. -/
def dmW : DepMap := [("a", ∅), ("b", {"a"})]

/-- Union of the levels emitted so far by the display-leveling loop. -/
def unionRet (ret : List (Finset String)) : Finset String :=
  ret.foldr (fun L acc => L ∪ acc) ∅

/-- Invariant of the `jit_toposort` loop relative to the original map
`dm`: the remaining keys come from `dm` and each remaining entry holds
its original dependencies minus the already-extracted (`done`) items;
`ready` and the emitted levels partition the done set; levels are
pairwise disjoint and disjoint from `ready`; every emitted item's
dependencies sit in strictly earlier levels; every ready item's
dependencies are already emitted; and the first emitted level is always
empty (which is why `ret[1:]` loses nothing). -/
structure JitInv (dm remaining : DepMap) (ready : Finset String)
    (ret : List (Finset String)) : Prop where
  hsub : keysOf remaining ⊆ keysOf dm
  hentry : ∀ e ∈ remaining, e.2 = origDeps dm e.1 \ (keysOf dm \ keysOf remaining)
  hdone : ready ∪ unionRet ret = keysOf dm \ keysOf remaining
  hrdisj : Disjoint ready (unionRet ret)
  hpdisj : ∀ i j, i ≠ j → Disjoint (ret.getD i ∅) (ret.getD j ∅)
  hord : ∀ j, ∀ X ∈ ret.getD j ∅, ∀ Y ∈ origDeps dm X, ∃ k < j, Y ∈ ret.getD k ∅
  hready : ∀ X ∈ ready, ∀ Y ∈ origDeps dm X, Y ∈ unionRet ret
  hinit : ret = [] → ready = ∅
  hhead : ret ≠ [] → ret.getD 0 ∅ = ∅

/-- Invariant of the `_compute` loop: every recorded discovered name is
undeclared and was encountered as a dependency of some provider a layer
contributes for a declared variable, and the known-name set keeps
covering the declared names. -/
def C5Inv (varNames : List String) (layers : List (String × LayerFun))
    (st : ComputeSt) : Prop :=
  (∀ d ∈ st.unresolved, d ∉ varNames ∧
    ∃ v ∈ varNames, ∃ l ∈ layers, ∃ deps, l.2 v = some deps ∧ d ∈ deps) ∧
  ∀ v ∈ varNames, v ∈ st.known

/-! ## Helper lemmas about the processor's state operations. -/

theorem registerResult_trace {Val : Type} (p : BoundProvider Val) (r : Resolution Val)
    (s : ProcState Val) : (registerResult p r s).trace = s.trace := rfl

theorem registerResult_queue {Val : Type} (p : BoundProvider Val) (r : Resolution Val)
    (s : ProcState Val) : (registerResult p r s).queue = s.queue := rfl

theorem registerResult_nvm {Val : Type} (p : BoundProvider Val) (r : Resolution Val)
    (s : ProcState Val) : (registerResult p r s).nvm = s.nvm := rfl

theorem prmContains_registerResult {Val : Type} (p : BoundProvider Val)
    (r : Resolution Val) (s : ProcState Val) (i : Nat) :
    prmContains (registerResult p r s) i = if p.id = i then true else prmContains s i := rfl

theorem prmContains_registerResult_mono {Val : Type} {p : BoundProvider Val}
    {r : Resolution Val} {s : ProcState Val} {i : Nat} (h : prmContains s i = true) :
    prmContains (registerResult p r s) i = true := by
  rw [prmContains_registerResult]
  split <;> simp [h]

theorem foldlPrune_trace {Val : Type} (l : List (BoundProvider Val)) (rs : String) :
    ∀ s : ProcState Val, (l.foldl (fun st q => prune q rs st) s).trace = s.trace := by
  induction l with
  | nil => intro s; rfl
  | cons q t ih => intro s; rw [List.foldl_cons, ih]; rfl

theorem foldlPrune_queue {Val : Type} (l : List (BoundProvider Val)) (rs : String) :
    ∀ s : ProcState Val, (l.foldl (fun st q => prune q rs st) s).queue = s.queue := by
  induction l with
  | nil => intro s; rfl
  | cons q t ih => intro s; rw [List.foldl_cons, ih]; rfl

theorem foldlPrune_nvm {Val : Type} (l : List (BoundProvider Val)) (rs : String) :
    ∀ s : ProcState Val, (l.foldl (fun st q => prune q rs st) s).nvm = s.nvm := by
  induction l with
  | nil => intro s; rfl
  | cons q t ih => intro s; rw [List.foldl_cons, ih]; rfl

theorem foldlPrune_prm_mono {Val : Type} (l : List (BoundProvider Val)) (rs : String)
    {i : Nat} : ∀ s : ProcState Val, prmContains s i = true →
    prmContains (l.foldl (fun st q => prune q rs st) s) i = true := by
  induction l with
  | nil => intro s h; exact h
  | cons q t ih =>
    intro s h
    rw [List.foldl_cons]
    exact ih _ (prmContains_registerResult_mono h)

theorem satisfy_trace {Val : Type} (bpm : String → List (BoundProvider Val))
    (p : BoundProvider Val) (v : Val) (s : ProcState Val) :
    (satisfy bpm p v s).trace = s.trace := by
  unfold satisfy
  rw [registerResult_trace, foldlPrune_trace]

theorem satisfy_queue {Val : Type} (bpm : String → List (BoundProvider Val))
    (p : BoundProvider Val) (v : Val) (s : ProcState Val) :
    (satisfy bpm p v s).queue = s.queue := by
  unfold satisfy
  rw [registerResult_queue, foldlPrune_queue]

theorem satisfy_nvm {Val : Type} (bpm : String → List (BoundProvider Val))
    (p : BoundProvider Val) (v : Val) (s : ProcState Val) :
    (satisfy bpm p v s).nvm = (p.varName, v) :: s.nvm := by
  unfold satisfy
  rw [registerResult_nvm, foldlPrune_nvm]

theorem satisfy_prm_self {Val : Type} (bpm : String → List (BoundProvider Val))
    (p : BoundProvider Val) (v : Val) (s : ProcState Val) :
    prmContains (satisfy bpm p v s) p.id = true := by
  unfold satisfy
  rw [prmContains_registerResult]
  simp

theorem satisfy_prm_mono {Val : Type} (bpm : String → List (BoundProvider Val))
    (p : BoundProvider Val) (v : Val) (s : ProcState Val) {i : Nat}
    (h : prmContains s i = true) : prmContains (satisfy bpm p v s) i = true := by
  unfold satisfy
  exact prmContains_registerResult_mono (foldlPrune_prm_mono _ _ _ h)

theorem unsatisfy_prm_self {Val : Type} (p : BoundProvider Val) (e : String)
    (s : ProcState Val) : prmContains (unsatisfy p e s) p.id = true := by
  unfold unsatisfy
  rw [prmContains_registerResult]
  simp

theorem pushDeps_stepped_fields {Val : Type} (bpm : String → List (BoundProvider Val))
    (vcm : String → List String) :
    ∀ (ds : List String) (s0 s1 : ProcState Val),
      pushDeps bpm vcm ds s0 = .stepped s1 →
      s1.nvm = s0.nvm ∧ s1.nrm = s0.nrm ∧ s1.prm = s0.prm ∧ s1.trace = s0.trace := by
  intro ds
  induction ds with
  | nil =>
    intro s0 s1 h
    simp only [pushDeps] at h
    cases h
    exact ⟨rfl, rfl, rfl, rfl⟩
  | cons d t ih =>
    intro s0 s1 h
    simp only [pushDeps] at h
    split at h
    · cases h
    · simpa using ih _ _ h

theorem pushDeps_raised_fields {Val : Type} (bpm : String → List (BoundProvider Val))
    (vcm : String → List String) :
    ∀ (ds : List String) (s0 s1 : ProcState Val) (e : RunErr Val),
      pushDeps bpm vcm ds s0 = .raised s1 e →
      s1.nvm = s0.nvm ∧ s1.nrm = s0.nrm ∧ s1.prm = s0.prm ∧ s1.trace = s0.trace := by
  intro ds
  induction ds with
  | nil =>
    intro s0 s1 e h
    simp only [pushDeps] at h
    cases h
  | cons d t ih =>
    intro s0 s1 e h
    simp only [pushDeps] at h
    split at h
    · cases h
      exact ⟨rfl, rfl, rfl, rfl⟩
    · simpa using ih _ _ _ h

theorem insertSorted_ne_nil (x : String) (l : List String) :
    insertSorted x l ≠ [] := by
  cases l with
  | nil => simp [insertSorted]
  | cons y ys =>
    unfold insertSorted
    split <;> simp

theorem sortStrings_ne_nil (l : List String) (h : l ≠ []) :
    sortStrings l ≠ [] := by
  unfold sortStrings
  have hd : l.dedup ≠ [] := by
    intro hc
    exact h ((List.dedup_eq_nil l).mp hc)
  cases hde : l.dedup with
  | nil => exact absurd hde hd
  | cons x xs =>
    rw [List.foldr_cons]
    exact insertSorted_ne_nil _ _

/-! ## Claim theorems. -/

/-- C1: the claim says that during resolution a lower-priority provider
for a variable is never invoked before every higher-priority provider
for it has been attempted and failed, and that dependency providers
pushed at the front of the queue are attempted in priority order.  The
code violates this: `to_proc.extendleft(bpm[dep_name])` (config.py line
261) pushes the providers reversed, so in scenario T (the test_basic.py
configuration) under a seed order that pops `var_b`'s provider first,
ThirdLayer's `var_a` provider (the trace starts with id 2) is invoked
and wins with -1 before FirstLayer's `var_a` provider (id 1) is ever
attempted - `pL1a.id` never appears in the invocation log, despite the
test's own `should never get here` comment on ThirdLayer. -/
theorem c1_lower_priority_invoked_first :
    (processRun bpmT vcmT validatorsT bplT 30 initT).map
      (fun r => (r.2.isNone, alookup "var_a" r.1.nvm, r.1.trace,
                 decide (pL1a.id ∈ r.1.trace))) =
      some (true, some (-1), [pL3a.id, pL1b.id, pL1c.id, pL2d.id], false) := by
  decide

/-- C4: the claim says every resolution run of the test_basic.py
configuration yields `{a:0, b:2, c:3, d:4}` with layer1's `var_b`
provider recorded Unsatisfied.  Under the seed order of `initT` (the
`req_names` set iterated with `var_b` first), the reversed dependency
push makes ThirdLayer's provider win `var_a = -1`, after which
FirstLayer's `var_b` provider succeeds with 1: the run completes with
final map `{a:-1, b:1, c:3, d:4}`. -/
theorem c4_scenario_final_map_diverges :
    (processRun bpmT vcmT validatorsT bplT 30 initT).map
      (fun r => (r.2.isNone, alookup "var_a" r.1.nvm, alookup "var_b" r.1.nvm,
                 alookup "var_c" r.1.nvm, alookup "var_d" r.1.nvm)) =
      some (true, some (-1), some 1, some 3, some 4) := by
  decide

/-- C6: the claim says every bound provider receives at most one
outcome per run.  In scenario V the reversed dependency push invokes
L2's provider for `v` (id 12) first, which fails (`Unsatisfied`); L1's
provider then succeeds and `satisfy` prunes everything after index 0 of
`bpm[v]`, recording a second outcome (`Pruned`) for id 12: `v`'s history
holds two entries for provider 12. -/
theorem c6_provider_double_outcome :
    (processRun bpmV vcmV validatorsV bplV 20 initV).map
      (fun r => (alookup "v" r.1.nrm,
                 ((alookup "v" r.1.nrm).getD []).countP (fun res => res.resBy = 12))) =
      some (some [.unsatisfied 12 "L2" "boom",
                  .pruned 12 "L2" "<already satisfied>",
                  .satisfied 11 "L1" 7], 2) := by
  decide

/-- C2 counterexample: the claim says a validator failure is caught,
recorded as `Unsatisfied`, and a fallback provider may still run (spec
scenario 4 expects final value 5 from the fallback).  In the code the
validator call (config.py line 270) sits outside the try/except of
lines 263-266, so in scenario Z the run aborts with the propagating
validator exception and `z` never receives a value. -/
theorem c2_validator_aborts_run :
    (processRun bpmZ vcmZ validatorsZ bplZ 10 initZ).map
      (fun r => (r.2, alookup "z" r.1.nvm)) =
      some (some (.validatorError "negative"), none) := by
  decide

/-- C2 amended: when a popped provider's function succeeds but the
variable's validator raises, the exception propagates out of the
work-list loop uncaught, aborting the run with the raising state
unchanged except for the popped queue entry and the invocation log: no
`Unsatisfied` outcome is recorded and no fallback is attempted. -/
theorem c2_amended_validator_raise_propagates {Val : Type}
    (bpm : String → List (BoundProvider Val)) (vcm : String → List String)
    (validators : String → Option (Val → Except String Val))
    (s : ProcState Val) (cp : BoundProvider Val) (rest : List (BoundProvider Val))
    (f : Val → Except String Val) (v : Val) (e : String) (n : Nat)
    (h1 : prmContains s cp.id = false)
    (h2 : nvmContains s cp.varName = false)
    (h3 : cp.depNames.filter (fun d => !(nvmContains s d)) = [])
    (h4 : cp.func (cp.depNames.map (fun d => alookup d s.nvm)) = .ok v)
    (h5 : validators cp.varName = some f)
    (h6 : f v = .error e)
    (hq : s.queue = cp :: rest) :
    processLoop bpm vcm validators (n + 1) s =
      some ({ s with queue := rest, trace := s.trace ++ [cp.id] },
        some (.validatorError e)) := by
  simp only [processLoop, hq, step, h1, h2, h3, h4, h5, h6, Bool.false_eq_true,
    if_false, List.isEmpty_nil, if_true]

/-- C2 witness: the amended theorem applied to scenario Z's initial
state. -/
theorem c2_witness :
    processLoop bpmZ vcmZ validatorsZ 1 initZ =
      some ({ initZ with queue := [pZ2], trace := initZ.trace ++ [pZ1.id] },
        some (.validatorError "negative")) :=
  c2_amended_validator_raise_propagates bpmZ vcmZ validatorsZ initZ pZ1 [pZ2]
    (fun x => if x < 0 then .error "negative" else .ok x) (-1) "negative" 0
    (by decide) (by decide) (by decide) (by decide) rfl (by decide) rfl

/-- C3 counterexample: the claim says that whenever every provider for
a needed variable has been attempted and failed, resolution raises the
exhausted-fallback error before the run completes - in particular for a
required `x` with a single always-failing provider and no fallback.  In
scenario X the work-list loop completes without raising (the line-258
check only fires when a popped CONSUMER still needs the dead variable,
and `x` has no consumers); the failure surfaces only afterwards as the
line-380 `ConfigException` naming `x`, not as the exhausted-fallback
error. -/
theorem c3_no_raise_without_consumer :
    (processRun bpmX vcmX validatorsX bplX 10 initX).map (fun r => r.2) = some none ∧
    baseFinish ["x"] (processRun bpmX vcmX validatorsX bplX 10 initX) =
      some (.error (.configException ["x"])) :=
  ⟨by decide, by decide⟩

/-- C3 amended: the exhausted-fallback error is raised exactly when a
popped provider has an unmet dependency whose recorded outcomes already
number at least its bound providers (config.py line 258): the loop then
raises immediately with the error naming that dependency, its consumers
from `var_consumer_map`, and the dependency's full outcome history
(each attempt's layer and failure detail, as `_build_error` prints). -/
theorem c3_amended_exhausted_raise_via_consumer {Val : Type}
    (bpm : String → List (BoundProvider Val)) (vcm : String → List String)
    (validators : String → Option (Val → Except String Val))
    (s : ProcState Val) (cp : BoundProvider Val) (rest : List (BoundProvider Val))
    (d : String) (ds : List String) (n : Nat)
    (h1 : prmContains s cp.id = false)
    (h2 : nvmContains s cp.varName = false)
    (h3 : cp.depNames.filter (fun dd => !(nvmContains s dd)) = d :: ds)
    (h4 : ((alookup d s.nrm).getD []).length ≥ (bpm d).length)
    (hq : s.queue = cp :: rest) :
    processLoop bpm vcm validators (n + 1) s =
      some ({ s with queue := cp :: rest },
        some (.exhaustedFallback d (vcm d) ((alookup d s.nrm).getD []))) := by
  simp only [processLoop, hq, step, h1, h2, h3, Bool.false_eq_true, if_false,
    List.isEmpty_cons, pushDeps, buildError, h4, if_true, ge_iff_le]

/-- C3 witness: the amended theorem applied to scenario Y at the state
where `y`'s provider is popped after `x`'s single provider failed. -/
theorem c3_witness :
    processLoop bpmY vcmY validatorsY 1 midY =
      some ({ midY with queue := [pYy] },
        some (.exhaustedFallback "x" (vcmY "x") ((alookup "x" midY.nrm).getD []))) :=
  c3_amended_exhausted_raise_via_consumer bpmY vcmY validatorsY midY pYy [] "x" [] 0
    (by decide) (by decide) (by decide) (by decide) rfl

/-- C5 counterexample: the claim says a discovered dependency name that
some layer can provide does not cause construction to fail.  With a
single declared variable `v` whose provider depends on `w`, and a layer
that can provide `w`, construction still fails naming `w`: the closure
extension (`to_proc.append(dn)`, config.py line 138) is commented out,
so discovered names are never given providers. -/
theorem c5_providable_discovered_name_fails :
    computeSpec ["v"] [("SelfLayer", layerC5)] = .error (.unresolvedDeps ["w"]) ∧
    (layerC5 "w").isSome = true :=
  ⟨by decide, by decide⟩

/-- C10: every declared variable is required - the processor's
requirement set is the spec's full variable list (config.py lines
191-192, embedded as `reqNamesOf` being the identity), and after a
completed run `BaseConfig._process` (lines 375-380) succeeds exactly
when every declared variable has a value, otherwise raising the
`ConfigException` that names precisely the lexicographically sorted
missing variables (a nonempty list), even for variables nothing else
depends on. -/
theorem c10_all_variables_required {Val : Type} (varNames : List String)
    (s : ProcState Val) :
    reqNamesOf varNames = varNames ∧
    (baseFinish varNames (some (s, none)) = some (.ok s.nvm) ↔
      ∀ v ∈ varNames, nvmContains s v = true) ∧
    ∀ l, baseFinish varNames (some (s, none)) = some (.error (.configException l)) →
      l = sortStrings (varNames.filter (fun v => !(nvmContains s v))) ∧ l ≠ [] := by
  have hbf : baseFinish varNames (some (s, none)) =
      some (if (sortStrings (varNames.filter (fun v => !(nvmContains s v)))).isEmpty
            then .ok s.nvm
            else .error (.configException
              (sortStrings (varNames.filter (fun v => !(nvmContains s v)))))) := rfl
  have key : (sortStrings (varNames.filter (fun v => !(nvmContains s v)))).isEmpty = true ↔
      ∀ v ∈ varNames, nvmContains s v = true := by
    rw [List.isEmpty_iff]
    constructor
    · intro hnil v hv
      have hfil : varNames.filter (fun v => !(nvmContains s v)) = [] := by
        by_contra hne
        exact sortStrings_ne_nil _ hne hnil
      have := List.filter_eq_nil_iff.mp hfil v hv
      simpa using this
    · intro hall
      have hfil : varNames.filter (fun v => !(nvmContains s v)) = [] := by
        rw [List.filter_eq_nil_iff]
        intro v hv
        simp [hall v hv]
      rw [hfil]
      rfl
  refine ⟨rfl, ?_, ?_⟩
  · rw [hbf]
    constructor
    · intro h
      by_cases hemp : (sortStrings (varNames.filter (fun v => !(nvmContains s v)))).isEmpty = true
      · exact key.mp hemp
      · simp [hemp] at h
    · intro hall
      rw [if_pos (key.mpr hall)]
  · intro l h
    rw [hbf] at h
    by_cases hemp : (sortStrings (varNames.filter (fun v => !(nvmContains s v)))).isEmpty = true
    · simp [hemp] at h
    · simp only [hemp, Bool.false_eq_true, if_false, Option.some.injEq,
        Except.error.injEq, ConfigErr.configException.injEq] at h
      refine ⟨h.symm, ?_⟩
      rw [h] at hemp
      intro hc
      rw [hc] at hemp
      exact hemp rfl

theorem procVarLayers_inv (varNames : List String)
    (layers : List (String × LayerFun)) (v : String) (hv : v ∈ varNames)
    (st : ComputeSt) (h : C5Inv varNames layers st) :
    C5Inv varNames layers (procVarLayers layers v st) := by
  unfold procVarLayers
  refine List.foldlRecOn layers _ st h ?_
  intro st1 h1 layer hlayer
  cases hl : layer.2 v with
  | none => simpa [hl] using h1
  | some deps =>
    simp only [hl]
    have hbase : C5Inv varNames layers { st1 with vpm := histAdd st1.vpm v ⟨layer.1, v, deps⟩ } := h1
    refine List.foldlRecOn deps _ _ hbase ?_
    intro st2 h2 dn hdn
    by_cases hk : dn ∈ st2.known
    · simpa [hk] using h2
    · simp only [hk, if_false]
      constructor
      · intro d hd
        simp only [List.mem_append, List.mem_singleton] at hd
        cases hd with
        | inl hd => exact h2.1 d hd
        | inr hd =>
          subst hd
          refine ⟨fun hc => hk (h2.2 d hc), v, hv, layer, hlayer, deps, hl, hdn⟩
      · intro w hw
        simp only [List.mem_append]
        exact Or.inl (h2.2 w hw)

theorem computeLoop_inv (varNames : List String)
    (layers : List (String × LayerFun)) :
    ∀ (vs : List String) (st st1 : ComputeSt), (∀ v ∈ vs, v ∈ varNames) →
    C5Inv varNames layers st → computeLoop layers vs st = .ok st1 →
    C5Inv varNames layers st1 := by
  intro vs
  induction vs with
  | nil =>
    intro st st1 _ hInv h
    cases h
    exact hInv
  | cons v t ih =>
    intro st st1 hmem hInv h
    rw [computeLoop] at h
    split at h
    · exact ih _ _ (fun w hw => hmem w (List.mem_cons_of_mem v hw))
        (procVarLayers_inv varNames layers v (hmem v (List.mem_cons_self v t)) st hInv) h
    · cases h

theorem computeLoop_error_shape (layers : List (String × LayerFun)) :
    ∀ (vs : List String) (st : ComputeSt) (e : SpecErr),
    computeLoop layers vs st = .error e → ∃ v, e = .noProviders v := by
  intro vs
  induction vs with
  | nil => intro st e h; cases h
  | cons v t ih =>
    intro st e h
    rw [computeLoop] at h
    split at h
    · exact ih _ e h
    · cases h
      exact ⟨v, rfl⟩

/-- C5 amended: every dependency name not among the known names is
recorded in the discovered list, but the closure never extends to
discovered names (config.py line 138 is commented out): whenever
construction fails with the unresolved-dependency error, the named list
is nonempty and consists of names that are not declared variables but
were encountered as dependencies of providers of declared variables -
regardless of whether some layer could have provided them. -/
theorem c5_amended_unresolved_characterization (varNames : List String)
    (layers : List (String × LayerFun)) (ds : List String)
    (h : computeSpec varNames layers = .error (.unresolvedDeps ds)) :
    ds ≠ [] ∧ ∀ d ∈ ds, d ∉ varNames ∧
      ∃ v ∈ varNames, ∃ l ∈ layers, ∃ deps, l.2 v = some deps ∧ d ∈ deps := by
  unfold computeSpec at h
  cases hres : computeLoop layers varNames.reverse ⟨varNames, [], [], []⟩ with
  | error e =>
    rw [hres] at h
    obtain ⟨v, hv⟩ := computeLoop_error_shape layers _ _ _ hres
    subst hv
    simp only [Bind.bind, Except.bind] at h
    cases h
  | ok st =>
    rw [hres] at h
    simp only [Bind.bind, Except.bind] at h
    have hInv : C5Inv varNames layers st := by
      refine computeLoop_inv varNames layers _ _ _ ?_ ?_ hres
      · intro v hv
        exact List.mem_reverse.mp hv
      · exact ⟨fun d hd => absurd hd (List.not_mem_nil d), fun v hv => hv⟩
    split at h
    · cases h
    · next hne =>
      cases h
      refine ⟨?_, hInv.1⟩
      intro hc
      rw [hc] at hne
      exact hne rfl

/-- C5 witness: the amended characterization applied to the concrete
configuration whose layer could provide the discovered name `w`. -/
theorem c5_witness :
    (["w"] : List String) ≠ [] ∧ ∀ d ∈ ["w"], d ∉ ["v"] ∧
      ∃ v ∈ ["v"], ∃ l ∈ [("SelfLayer", layerC5)], ∃ deps,
        l.2 v = some deps ∧ d ∈ deps :=
  c5_amended_unresolved_characterization ["v"] [("SelfLayer", layerC5)] ["w"]
    (by decide)

theorem step_traceInv {Val : Type} (bpm : String → List (BoundProvider Val))
    (vcm : String → List String)
    (validators : String → Option (Val → Except String Val))
    (s : ProcState Val) (cp : BoundProvider Val) (rest : List (BoundProvider Val))
    (h : TraceInv s) :
    (∀ s1, step bpm vcm validators s cp rest = .stepped s1 → TraceInv s1) ∧
    (∀ s1 e, step bpm vcm validators s cp rest = .raised s1 e → s1.trace.Nodup) := by
  have hcpid : prmContains s cp.id = false → cp.id ∉ s.trace := by
    intro hf hc
    rw [h.2 cp.id hc] at hf
    cases hf
  by_cases h1 : prmContains s cp.id = true
  · constructor
    · intro s1 hs1
      simp only [step, h1, if_true] at hs1
      cases hs1
      exact h
    · intro s1 e hs1
      simp only [step, h1, if_true] at hs1
      cases hs1
  · simp only [Bool.not_eq_true] at h1
    by_cases h2 : nvmContains s cp.varName = true
    · constructor
      · intro s1 hs1
        simp only [step, h1, h2, Bool.false_eq_true, if_false, if_true] at hs1
        cases hs1
        exact h
      · intro s1 e hs1
        simp only [step, h1, h2, Bool.false_eq_true, if_false, if_true] at hs1
        cases hs1
    · simp only [Bool.not_eq_true] at h2
      have hnodup1 : (s.trace ++ [cp.id]).Nodup := by
        simp [List.nodup_append, h.1, hcpid h1]
      by_cases h3 : (cp.depNames.filter (fun d => !(nvmContains s d))).isEmpty = true
      · cases hfn : cp.func (cp.depNames.map (fun d => alookup d s.nvm)) with
        | error e =>
          constructor
          · intro s1 hs1
            simp only [step, h1, h2, h3, hfn, Bool.false_eq_true, if_false,
              if_true, StepOut.stepped.injEq] at hs1
            subst hs1
            constructor
            · exact hnodup1
            · intro pid hpid
              simp only [unsatisfy, registerResult_trace] at hpid
              simp only [List.mem_append, List.mem_singleton] at hpid
              cases hpid with
              | inl hpid => exact prmContains_registerResult_mono (h.2 pid hpid)
              | inr hpid =>
                subst hpid
                exact unsatisfy_prm_self cp e _
          · intro s1 e1 hs1
            simp only [step, h1, h2, h3, hfn, Bool.false_eq_true, if_false,
              if_true] at hs1
            cases hs1
        | ok v =>
          cases hv : validators cp.varName with
          | none =>
            constructor
            · intro s1 hs1
              simp only [step, h1, h2, h3, hfn, hv, Bool.false_eq_true, if_false,
                if_true, StepOut.stepped.injEq] at hs1
              subst hs1
              constructor
              · rw [satisfy_trace]
                exact hnodup1
              · intro pid hpid
                rw [satisfy_trace] at hpid
                simp only [List.mem_append, List.mem_singleton] at hpid
                cases hpid with
                | inl hpid => exact satisfy_prm_mono bpm cp v _ (h.2 pid hpid)
                | inr hpid =>
                  subst hpid
                  exact satisfy_prm_self bpm cp v _
            · intro s1 e1 hs1
              simp only [step, h1, h2, h3, hfn, hv, Bool.false_eq_true, if_false,
                if_true] at hs1
              cases hs1
          | some f =>
            cases hf : f v with
            | error e1 =>
              constructor
              · intro s1 hs1
                simp only [step, h1, h2, h3, hfn, hv, hf, Bool.false_eq_true,
                  if_false, if_true] at hs1
                cases hs1
              · intro s1 e2 hs1
                simp only [step, h1, h2, h3, hfn, hv, hf, Bool.false_eq_true,
                  if_false, if_true, StepOut.raised.injEq] at hs1
                rw [← hs1.1]
                exact hnodup1
            | ok pv =>
              constructor
              · intro s1 hs1
                simp only [step, h1, h2, h3, hfn, hv, hf, Bool.false_eq_true,
                  if_false, if_true, StepOut.stepped.injEq] at hs1
                subst hs1
                constructor
                · rw [satisfy_trace]
                  exact hnodup1
                · intro pid hpid
                  rw [satisfy_trace] at hpid
                  simp only [List.mem_append, List.mem_singleton] at hpid
                  cases hpid with
                  | inl hpid => exact satisfy_prm_mono bpm cp pv _ (h.2 pid hpid)
                  | inr hpid =>
                    subst hpid
                    exact satisfy_prm_self bpm cp pv _
              · intro s1 e1 hs1
                simp only [step, h1, h2, h3, hfn, hv, hf, Bool.false_eq_true,
                  if_false, if_true] at hs1
                cases hs1
      · constructor
        · intro s1 hs1
          simp only [step, h1, h2, h3, Bool.false_eq_true, if_false] at hs1
          obtain ⟨hnvm, hnrm, hprm, htr⟩ :=
            pushDeps_stepped_fields bpm vcm _ _ _ hs1
          constructor
          · rw [htr]
            exact h.1
          · intro pid hpid
            rw [htr] at hpid
            have := h.2 pid hpid
            unfold prmContains at this ⊢
            rw [hprm]
            exact this
        · intro s1 e hs1
          simp only [step, h1, h2, h3, Bool.false_eq_true, if_false] at hs1
          obtain ⟨hnvm, hnrm, hprm, htr⟩ :=
            pushDeps_raised_fields bpm vcm _ _ _ _ hs1
          rw [htr]
          exact h.1

theorem processLoop_nil {Val : Type} (bpm : String → List (BoundProvider Val))
    (vcm : String → List String)
    (validators : String → Option (Val → Except String Val)) (n : Nat)
    (s : ProcState Val) (hq : s.queue = []) :
    processLoop bpm vcm validators (n + 1) s = some (s, none) := by
  rw [processLoop, hq]

theorem processLoop_cons {Val : Type} (bpm : String → List (BoundProvider Val))
    (vcm : String → List String)
    (validators : String → Option (Val → Except String Val)) (n : Nat)
    (s : ProcState Val) (cp : BoundProvider Val)
    (rest : List (BoundProvider Val)) (hq : s.queue = cp :: rest) :
    processLoop bpm vcm validators (n + 1) s =
      match step bpm vcm validators s cp rest with
      | .stepped s1 => processLoop bpm vcm validators n s1
      | .raised s1 e => some (s1, some e) := by
  rw [processLoop, hq]

theorem processLoop_nodup {Val : Type} (bpm : String → List (BoundProvider Val))
    (vcm : String → List String)
    (validators : String → Option (Val → Except String Val)) :
    ∀ (n : Nat) (s : ProcState Val) (r : ProcState Val × Option (RunErr Val)),
    TraceInv s → processLoop bpm vcm validators n s = some r →
    r.1.trace.Nodup := by
  intro n
  induction n with
  | zero =>
    intro s r _ h
    cases h
  | succ n ih =>
    intro s r hInv h
    cases hq : s.queue with
    | nil =>
      rw [processLoop_nil bpm vcm validators n s hq] at h
      cases h
      exact hInv.1
    | cons cp rest =>
      rw [processLoop_cons bpm vcm validators n s cp rest hq] at h
      cases hstep : step bpm vcm validators s cp rest with
      | stepped s1 =>
        rw [hstep] at h
        exact ih s1 r ((step_traceInv bpm vcm validators s cp rest hInv).1 s1 hstep) h
      | raised s1 e =>
        rw [hstep] at h
        cases h
        exact (step_traceInv bpm vcm validators s cp rest hInv).2 s1 e hstep

theorem finalPrune_trace {Val : Type} (bpl : List (BoundProvider Val)) :
    ∀ s : ProcState Val, (finalPrune bpl s).trace = s.trace := by
  unfold finalPrune
  induction bpl with
  | nil => intro s; rfl
  | cons bp t ih =>
    intro s
    rw [List.foldl_cons]
    rw [ih]
    split <;> rfl

/-- C7: idempotent memoization holds - within one run, a provider whose
outcome is recorded is never invoked again, so the invocation log of a
finished (or raising) run never repeats a provider id: the line-250
guard discards any re-queued provider that already has an outcome, and
both `unsatisfy` and `satisfy` record an outcome immediately after the
invocation they follow. -/
theorem c7_invoked_at_most_once {Val : Type}
    (bpm : String → List (BoundProvider Val)) (vcm : String → List String)
    (validators : String → Option (Val → Except String Val))
    (bpl : List (BoundProvider Val)) (n : Nat) (s : ProcState Val)
    (l : List Nat) (hInv : TraceInv s)
    (h : traceOf (processRun bpm vcm validators bpl n s) = some l) :
    l.Nodup := by
  unfold traceOf processRun at h
  cases hres : processLoop bpm vcm validators n s with
  | none =>
    rw [hres] at h
    cases h
  | some r =>
    obtain ⟨s2, e2⟩ := r
    rw [hres] at h
    have hnd := processLoop_nodup bpm vcm validators n s (s2, e2) hInv hres
    cases e2 with
    | none =>
      simp only [Option.map_some'] at h
      cases h
      show (finalPrune bpl s2).trace.Nodup
      rw [finalPrune_trace]
      exact hnd
    | some e =>
      simp only [Option.map_some'] at h
      cases h
      exact hnd

/-- C10 witness: the requirement characterization applied to a concrete
variable list and run state missing `x`. -/
theorem c10_witness :
    (["x"] : List String) =
      sortStrings (["x"].filter (fun v => !(nvmContains midY v))) ∧
    (["x"] : List String) ≠ [] :=
  (c10_all_variables_required ["x"] midY).2.2 ["x"] (by decide)

/-! ## Termination machinery for C8. -/

theorem alookup_histAdd_self {β : Type} :
    ∀ (m : List (String × List β)) (k : String) (x : β),
    alookup k (histAdd m k x) = some ((alookup k m).getD [] ++ [x]) := by
  intro m
  induction m with
  | nil => intro k x; simp [histAdd, alookup]
  | cons e es ih =>
    intro k x
    by_cases he : e.1 = k
    · simp [histAdd, alookup, he]
    · simp [histAdd, alookup, he, ih]

theorem alookup_histAdd_other {β : Type} :
    ∀ (m : List (String × List β)) (k k2 : String) (x : β), k2 ≠ k →
    alookup k2 (histAdd m k x) = alookup k2 m := by
  intro m
  induction m with
  | nil =>
    intro k k2 x hne
    have hk2 : ¬(k = k2) := fun h => hne h.symm
    simp [histAdd, alookup, hk2]
  | cons e es ih =>
    intro k k2 x hne
    have hk2 : ¬(k = k2) := fun h => hne h.symm
    by_cases he : e.1 = k
    · simp [histAdd, alookup, he, hk2]
    · by_cases he2 : e.1 = k2
      · simp [histAdd, alookup, he, he2, hne, ih _ _ _ hne]
      · simp [histAdd, alookup, he, he2, hne, ih _ _ _ hne]

theorem countP_congr_mem {α : Type} (P Q : α → Bool) :
    ∀ l : List α, (∀ x ∈ l, P x = Q x) → l.countP P = l.countP Q := by
  intro l
  induction l with
  | nil => intro _; rfl
  | cons a t ih =>
    intro h
    rw [List.countP_cons, List.countP_cons,
      ih (fun x hx => h x (List.mem_cons_of_mem a hx)),
      h a (List.mem_cons_self a t)]

theorem countP_register_le {Val : Type} (j : Nat) (P : BoundProvider Val → Bool) :
    ∀ l : List (BoundProvider Val), (l.map (fun p => p.id)).Nodup →
    l.countP (fun q => if j = q.id then true else P q) ≤ l.countP P + 1 := by
  intro l
  induction l with
  | nil => intro _; simp
  | cons a t ih =>
    intro hnd
    simp only [List.map_cons, List.nodup_cons] at hnd
    by_cases hj : j = a.id
    · have heq : t.countP (fun q => if j = q.id then true else P q) = t.countP P := by
        refine countP_congr_mem _ _ t ?_
        intro x hx
        have hne : ¬(j = x.id) := by
          intro hc
          apply hnd.1
          have hax : a.id = x.id := hj.symm.trans hc
          rw [hax]
          exact List.mem_map_of_mem (fun p => p.id) hx
        simp [hne]
      rw [List.countP_cons, List.countP_cons, heq]
      by_cases hPa : P a = true <;> simp [hj, hPa]
    · rw [List.countP_cons, List.countP_cons]
      have hih := ih hnd.2
      have hpa : (if j = a.id then true else P a) = P a := by
        simp [hj]
      rw [hpa]
      omega

theorem exists_no_outcome_of_countP_lt {Val : Type}
    (l : List (BoundProvider Val)) (P : BoundProvider Val → Bool)
    (h : l.countP P < l.length) : ∃ q ∈ l, P q = false := by
  by_contra hc
  push_neg at hc
  have : ∀ q ∈ l, P q = true := by
    intro q hq
    cases hpq : P q with
    | false => exact absurd hpq (hc q hq)
    | true => rfl
  rw [List.countP_eq_length.mpr this] at h
  exact absurd h (lt_irrefl _)

theorem countInv_registerResult {Val : Type}
    {bpm : String → List (BoundProvider Val)} {bpl : List (BoundProvider Val)}
    {rank : String → Nat} (hyps : ProcHyps bpm bpl rank) {s : ProcState Val}
    {p : BoundProvider Val} (r : Resolution Val)
    (hp : p ∈ bpm p.varName) (hc : CountInv bpm s) :
    CountInv bpm (registerResult p r s) := by
  intro d
  by_cases hd : d = p.varName
  · have hlen : (alookup d (registerResult p r s).nrm).getD [] =
        (alookup d s.nrm).getD [] ++ [r] := by
      show (alookup d (histAdd s.nrm p.varName r)).getD [] = _
      rw [hd, alookup_histAdd_self]
      rfl
    rw [hlen]
    have hcnt : (bpm d).countP (fun q => prmContains (registerResult p r s) q.id) =
        (bpm d).countP (fun q => if p.id = q.id then true else prmContains s q.id) := by
      refine countP_congr_mem _ _ _ ?_
      intro q _
      rw [prmContains_registerResult]
    rw [hcnt, List.length_append]
    have hle : (bpm d).countP (fun q => if p.id = q.id then true else prmContains s q.id) ≤
        (bpm d).countP (fun q => prmContains s q.id) + 1 :=
      countP_register_le p.id (fun q => prmContains s q.id) (bpm d) (hyps.hnodup d)
    have hold := hc d
    simp only [List.length_singleton]
    omega
  · have hlen : (alookup d (registerResult p r s).nrm).getD [] =
        (alookup d s.nrm).getD [] := by
      show (alookup d (histAdd s.nrm p.varName r)).getD [] = _
      rw [alookup_histAdd_other _ _ _ _ hd]
    rw [hlen]
    have hcnt : (bpm d).countP (fun q => prmContains (registerResult p r s) q.id) =
        (bpm d).countP (fun q => prmContains s q.id) := by
      refine countP_congr_mem _ _ _ ?_
      intro q hq
      rw [prmContains_registerResult]
      have : ¬(p.id = q.id) := by
        intro hc2
        exact hd (hyps.hid d p.varName q p hq hp hc2.symm)
      simp [this]
    rw [hcnt]
    exact hc d

theorem countInv_satisfy {Val : Type}
    {bpm : String → List (BoundProvider Val)} {bpl : List (BoundProvider Val)}
    {rank : String → Nat} (hyps : ProcHyps bpm bpl rank) {s : ProcState Val}
    {p : BoundProvider Val} (v : Val)
    (hp : p ∈ bpm p.varName) (hc : CountInv bpm s) :
    CountInv bpm (satisfy bpm p v s) := by
  unfold satisfy
  have hc1 : CountInv bpm
      { s with nvm := (p.varName, v) :: s.nvm, nsm := (p.varName, p.id) :: s.nsm } := hc
  refine countInv_registerResult hyps _ hp ?_
  refine List.foldlRecOn _ _ _ hc1 ?_
  intro st hst q hq
  have hqmem : q ∈ bpm p.varName :=
    List.Sublist.mem hq (List.drop_sublist _ _)
  have hqvar : q.varName = p.varName := hyps.hvar _ _ hqmem
  exact countInv_registerResult hyps _ (hqvar ▸ hqmem) hst

theorem pushDeps_stepped_struct {Val : Type}
    {bpm : String → List (BoundProvider Val)} {vcm : String → List String}
    (hvar : ∀ v p, p ∈ bpm v → p.varName = v) :
    ∀ (ds : List String) (s0 s1 : ProcState Val),
    (∀ d ∈ ds, nvmContains s0 d = false) → CountInv bpm s0 →
    pushDeps bpm vcm ds s0 = .stepped s1 →
    ∃ pref, s1 = { s0 with queue := pref ++ s0.queue } ∧
      (∀ p ∈ pref, ∃ d ∈ ds, p ∈ bpm d) ∧
      (ds = [] ∨ ∃ p ∈ pref, skippableB s0 p = false) := by
  intro ds
  induction ds with
  | nil =>
    intro s0 s1 _ _ h
    simp only [pushDeps] at h
    cases h
    refine ⟨[], ?_, by simp, Or.inl rfl⟩
    simp
  | cons d t ih =>
    intro s0 s1 hnvm hcnt h
    simp only [pushDeps] at h
    split at h
    · cases h
    · next hlt =>
      push_neg at hlt
      have hnvm1 : ∀ d2 ∈ t, nvmContains
          { s0 with queue := (bpm d).reverse ++ s0.queue } d2 = false :=
        fun d2 hd2 => hnvm d2 (List.mem_cons_of_mem d hd2)
      have hcnt1 : CountInv bpm { s0 with queue := (bpm d).reverse ++ s0.queue } := hcnt
      obtain ⟨pref1, hs1, hmem1, hskip1⟩ := ih _ _ hnvm1 hcnt1 h
      refine ⟨pref1 ++ (bpm d).reverse, ?_, ?_, ?_⟩
      · rw [hs1]
        simp
      · intro p hp
        rw [List.mem_append] at hp
        cases hp with
        | inl hp =>
          obtain ⟨d2, hd2, hpd2⟩ := hmem1 p hp
          exact ⟨d2, List.mem_cons_of_mem d hd2, hpd2⟩
        | inr hp =>
          exact ⟨d, List.mem_cons_self d t, List.mem_reverse.mp hp⟩
      · refine Or.inr ?_
        have hlt2 : (bpm d).countP (fun q => prmContains s0 q.id) < (bpm d).length := by
          have := hcnt d
          omega
        obtain ⟨q, hq, hqf⟩ := exists_no_outcome_of_countP_lt _ _ hlt2
        refine ⟨q, List.mem_append_right _ (List.mem_reverse.mpr hq), ?_⟩
        unfold skippableB
        rw [hqf]
        have : nvmContains s0 q.varName = false := by
          rw [hvar d q hq]
          exact hnvm d (List.mem_cons_self d t)
        rw [this]
        rfl

theorem filter_length_le_mono {α : Type} (P Q : α → Bool) :
    ∀ l : List α, (∀ x ∈ l, Q x = true → P x = true) →
    (l.filter Q).length ≤ (l.filter P).length := by
  intro l
  induction l with
  | nil => intro _; simp
  | cons a t ih =>
    intro hmono
    have hih := ih (fun x hx => hmono x (List.mem_cons_of_mem a hx))
    by_cases hQ : Q a = true
    · have hP := hmono a (List.mem_cons_self a t) hQ
      simp [List.filter_cons, hQ, hP]
      omega
    · by_cases hP : P a = true <;> simp [List.filter_cons, hQ, hP] <;> omega

theorem filter_length_lt_strict {α : Type} (P Q : α → Bool) :
    ∀ l : List α, (∀ x ∈ l, Q x = true → P x = true) →
    ∀ x0 ∈ l, P x0 = true → Q x0 = false →
    (l.filter Q).length < (l.filter P).length := by
  intro l
  induction l with
  | nil => intro _ x0 hx0; cases hx0
  | cons a t ih =>
    intro hmono x0 hx0 hP hQ
    have hmono2 : ∀ x ∈ t, Q x = true → P x = true :=
      fun x hx => hmono x (List.mem_cons_of_mem a hx)
    rcases List.mem_cons.mp hx0 with hx0 | hx0
    · subst hx0
      have hle := filter_length_le_mono P Q t hmono2
      simp [List.filter_cons, hQ, hP]
      omega
    · by_cases hQa : Q a = true
      · have hPa := hmono a (List.mem_cons_self a t) hQa
        have := ih hmono2 x0 hx0 hP hQ
        simp [List.filter_cons, hQa, hPa]
        omega
      · have := ih hmono2 x0 hx0 hP hQ
        by_cases hPa : P a = true <;> simp [List.filter_cons, hQa, hPa] <;> omega

theorem dropWhile_append_of_mem_false {α : Type} (p : α → Bool) :
    ∀ (l1 l2 : List α), (∃ x ∈ l1, p x = false) →
    List.dropWhile p (l1 ++ l2) = List.dropWhile p l1 ++ l2 ∧
      List.dropWhile p l1 ≠ [] := by
  intro l1
  induction l1 with
  | nil =>
    intro l2 hx
    obtain ⟨x, hx, _⟩ := hx
    cases hx
  | cons a t ih =>
    intro l2 hx
    by_cases hpa : p a = true
    · have hxt : ∃ x ∈ t, p x = false := by
        obtain ⟨x, hxm, hxf⟩ := hx
        rcases List.mem_cons.mp hxm with hxm | hxm
        · subst hxm
          rw [hpa] at hxf
          cases hxf
        · exact ⟨x, hxm, hxf⟩
      obtain ⟨hdrop, hne⟩ := ih l2 hxt
      constructor
      · rw [List.cons_append, List.dropWhile_cons, if_pos hpa, hdrop,
          List.dropWhile_cons, if_pos hpa]
      · rw [List.dropWhile_cons, if_pos hpa]
        exact hne
    · constructor
      · rw [List.cons_append, List.dropWhile_cons, if_neg hpa,
          List.dropWhile_cons, if_neg hpa]
        rfl
      · rw [List.dropWhile_cons, if_neg hpa]
        exact List.cons_ne_nil a t

theorem step_skip_eq {Val : Type} (bpm : String → List (BoundProvider Val))
    (vcm : String → List String)
    (validators : String → Option (Val → Except String Val))
    (s : ProcState Val) (cp : BoundProvider Val) (rest : List (BoundProvider Val))
    (hsk : skippableB s cp = true) :
    step bpm vcm validators s cp rest = .stepped { s with queue := rest } := by
  unfold skippableB at hsk
  cases h1 : prmContains s cp.id with
  | true => simp [step, h1]
  | false =>
    rw [h1] at hsk
    simp only [Bool.false_or] at hsk
    simp [step, h1, hsk]

theorem step_invoke_cases {Val : Type}
    {bpm : String → List (BoundProvider Val)} {bpl : List (BoundProvider Val)}
    {rank : String → Nat} (hyps : ProcHyps bpm bpl rank)
    (vcm : String → List String)
    (validators : String → Option (Val → Except String Val))
    (s : ProcState Val) (cp : BoundProvider Val) (rest : List (BoundProvider Val))
    (h1 : prmContains s cp.id = false)
    (h2 : nvmContains s cp.varName = false)
    (h3 : (cp.depNames.filter (fun d => !(nvmContains s d))).isEmpty = true)
    (hcp : cp ∈ bpm cp.varName) (hcnt : CountInv bpm s) :
    (∃ s1, step bpm vcm validators s cp rest = .stepped s1 ∧
      s1.queue = rest ∧ prmContains s1 cp.id = true ∧
      (∀ i, prmContains s i = true → prmContains s1 i = true) ∧
      CountInv bpm s1) ∨
    (∃ s1 e, step bpm vcm validators s cp rest = .raised s1 e) := by
  have hcnt1 : CountInv bpm
      { s with queue := rest, trace := s.trace ++ [cp.id] } := hcnt
  cases hfn : cp.func (cp.depNames.map (fun d => alookup d s.nvm)) with
  | error e =>
    refine Or.inl ⟨unsatisfy cp e { s with queue := rest, trace := s.trace ++ [cp.id] },
      ?_, rfl, unsatisfy_prm_self cp e _, ?_, ?_⟩
    · simp only [step, h1, h2, h3, hfn, Bool.false_eq_true, if_false, if_true]
    · intro i hi
      exact prmContains_registerResult_mono hi
    · exact countInv_registerResult hyps _ hcp hcnt1
  | ok v =>
    cases hv : validators cp.varName with
    | none =>
      refine Or.inl ⟨satisfy bpm cp v { s with queue := rest, trace := s.trace ++ [cp.id] },
        ?_, ?_, satisfy_prm_self bpm cp v _, ?_, ?_⟩
      · simp only [step, h1, h2, h3, hfn, hv, Bool.false_eq_true, if_false, if_true]
      · rw [satisfy_queue]
      · intro i hi
        exact satisfy_prm_mono bpm cp v _ hi
      · exact countInv_satisfy hyps v hcp hcnt1
    | some f =>
      cases hf : f v with
      | error e =>
        refine Or.inr ⟨{ s with queue := rest, trace := s.trace ++ [cp.id] },
          .validatorError e, ?_⟩
        simp only [step, h1, h2, h3, hfn, hv, hf, Bool.false_eq_true, if_false, if_true]
      | ok pv =>
        refine Or.inl ⟨satisfy bpm cp pv { s with queue := rest, trace := s.trace ++ [cp.id] },
          ?_, ?_, satisfy_prm_self bpm cp pv _, ?_, ?_⟩
        · simp only [step, h1, h2, h3, hfn, hv, hf, Bool.false_eq_true, if_false, if_true]
        · rw [satisfy_queue]
        · intro i hi
          exact satisfy_prm_mono bpm cp pv _ hi
        · exact countInv_satisfy hyps pv hcp hcnt1

theorem step_push_cases {Val : Type}
    {bpm : String → List (BoundProvider Val)} {bpl : List (BoundProvider Val)}
    {rank : String → Nat} (hyps : ProcHyps bpm bpl rank)
    (vcm : String → List String)
    (validators : String → Option (Val → Except String Val))
    (s : ProcState Val) (cp : BoundProvider Val) (rest : List (BoundProvider Val))
    (h1 : prmContains s cp.id = false)
    (h2 : nvmContains s cp.varName = false)
    (h3 : (cp.depNames.filter (fun d => !(nvmContains s d))).isEmpty = false)
    (hcnt : CountInv bpm s) :
    (∃ s1 e, step bpm vcm validators s cp rest = .raised s1 e) ∨
    (∃ s1 pref, step bpm vcm validators s cp rest = .stepped s1 ∧
      s1 = { s with queue := pref ++ cp :: rest } ∧
      (∀ p ∈ pref, ∃ d ∈ cp.depNames.filter (fun d => !(nvmContains s d)), p ∈ bpm d) ∧
      ∃ p ∈ pref, skippableB s p = false) := by
  have hstepEq : step bpm vcm validators s cp rest =
      pushDeps bpm vcm (cp.depNames.filter (fun d => !(nvmContains s d)))
        { s with queue := cp :: rest } := by
    simp only [step, h1, h2, h3, Bool.false_eq_true, if_false]
  cases hpd : pushDeps bpm vcm (cp.depNames.filter (fun d => !(nvmContains s d)))
      { s with queue := cp :: rest } with
  | raised s1 e =>
    exact Or.inl ⟨s1, e, by rw [hstepEq, hpd]⟩
  | stepped s1 =>
    have hnvmu : ∀ d ∈ cp.depNames.filter (fun d => !(nvmContains s d)),
        nvmContains { s with queue := cp :: rest } d = false := by
      intro d hd
      have := (List.mem_filter.mp hd).2
      show nvmContains s d = false
      cases hnv : nvmContains s d
      · rfl
      · rw [hnv] at this
        cases this
    have hcnt0 : CountInv bpm { s with queue := cp :: rest } := hcnt
    obtain ⟨pref, hs1, hmem, hor⟩ :=
      pushDeps_stepped_struct hyps.hvar _ _ _ hnvmu hcnt0 hpd
    have hne : cp.depNames.filter (fun d => !(nvmContains s d)) ≠ [] :=
      List.isEmpty_eq_false.mp h3
    cases hor with
    | inl hnil => exact absurd hnil hne
    | inr hex =>
      refine Or.inr ⟨s1, pref, by rw [hstepEq, hpd], ?_, hmem, ?_⟩
      · rw [hs1]
      · obtain ⟨p, hp, hpf⟩ := hex
        exact ⟨p, hp, hpf⟩

theorem processLoop_term {Val : Type}
    (bpm : String → List (BoundProvider Val)) (vcm : String → List String)
    (validators : String → Option (Val → Except String Val))
    (bpl : List (BoundProvider Val)) (rank : String → Nat)
    (hyps : ProcHyps bpm bpl rank) :
    ∀ (a : Nat), ∀ (b c : Nat), ∀ s : ProcState Val, StateInv bpm s →
      measureA bpl s < a → measureB rank s < b → measureC s < c →
      ∃ n r, processLoop bpm vcm validators n s = some r := by
  intro a
  induction a with
  | zero =>
    intro b c s _ hA _ _
    exact absurd hA (Nat.not_lt_zero _)
  | succ a iha =>
    intro b
    induction b with
    | zero =>
      intro c s _ _ hB _
      exact absurd hB (Nat.not_lt_zero _)
    | succ b ihb =>
      intro c
      induction c with
      | zero =>
        intro s _ _ _ hC
        exact absurd hC (Nat.not_lt_zero _)
      | succ c ihc =>
        intro s hs hA hB hC
        cases hq : s.queue with
        | nil => exact ⟨1, (s, none), processLoop_nil bpm vcm validators 0 s hq⟩
        | cons cp rest =>
          have hcpq : cp ∈ s.queue := by
            rw [hq]
            exact List.mem_cons_self cp rest
          have hcpbpm : cp ∈ bpm cp.varName := hs.1 cp hcpq
          by_cases hsk : skippableB s cp = true
          · have hstep := step_skip_eq bpm vcm validators s cp rest hsk
            have hsInv : StateInv bpm ({ s with queue := rest } : ProcState Val) := by
              refine ⟨?_, hs.2⟩
              intro p hp
              refine hs.1 p ?_
              rw [hq]
              exact List.mem_cons_of_mem cp hp
            have hpq : pendingQ ({ s with queue := rest } : ProcState Val) = pendingQ s := by
              show rest.dropWhile (skippableB s) = pendingQ s
              unfold pendingQ
              rw [hq, List.dropWhile_cons, if_pos hsk]
            have hB1 : measureB rank ({ s with queue := rest } : ProcState Val) =
                measureB rank s := by
              unfold measureB
              rw [hpq]
            have hC1 : measureC ({ s with queue := rest } : ProcState Val) + 1 =
                measureC s := by
              show (rest.takeWhile (skippableB s)).length + 1 = measureC s
              unfold measureC
              rw [hq, List.takeWhile_cons, if_pos hsk]
              rfl
            obtain ⟨n, r, hr⟩ := ihc { s with queue := rest } hsInv hA
              (by rw [hB1]; exact hB) (by omega)
            exact ⟨n + 1, r,
              by rw [processLoop_cons bpm vcm validators n s cp rest hq, hstep]; exact hr⟩
          · rw [Bool.not_eq_true] at hsk
            have h12 := Bool.or_eq_false_iff.mp hsk
            have h1 : prmContains s cp.id = false := h12.1
            have h2 : nvmContains s cp.varName = false := h12.2
            by_cases h3 : (cp.depNames.filter (fun d => !(nvmContains s d))).isEmpty = true
            · rcases step_invoke_cases hyps vcm validators s cp rest h1 h2 h3 hcpbpm hs.2 with
                ⟨s1, hstep, hqueue, hself, hmono, hcnt1⟩ | ⟨s1, e, hstep⟩
              · have hAlt : measureA bpl s1 < measureA bpl s := by
                  unfold measureA
                  refine filter_length_lt_strict _ _ bpl ?_ cp (hyps.hbl _ _ hcpbpm) ?_ ?_
                  · intro x _ hQ
                    cases hP : prmContains s x.id
                    · rfl
                    · rw [hmono x.id hP] at hQ
                      cases hQ
                  · rw [h1]
                    rfl
                  · rw [hself]
                    rfl
                have hsInv1 : StateInv bpm s1 := by
                  refine ⟨?_, hcnt1⟩
                  intro p hp
                  rw [hqueue] at hp
                  refine hs.1 p ?_
                  rw [hq]
                  exact List.mem_cons_of_mem cp hp
                obtain ⟨n, r, hr⟩ := iha (measureB rank s1 + 1) (measureC s1 + 1) s1
                  hsInv1 (by omega) (Nat.lt_succ_self _) (Nat.lt_succ_self _)
                exact ⟨n + 1, r,
                  by rw [processLoop_cons bpm vcm validators n s cp rest hq, hstep]; exact hr⟩
              · exact ⟨1, (s1, some e),
                  by rw [processLoop_cons bpm vcm validators 0 s cp rest hq, hstep]⟩
            · rw [Bool.not_eq_true] at h3
              rcases step_push_cases hyps vcm validators s cp rest h1 h2 h3 hs.2 with
                ⟨s1, e, hstep⟩ | ⟨s1, pref, hstep, hs1eq, hmem, hex⟩
              · exact ⟨1, (s1, some e),
                  by rw [processLoop_cons bpm vcm validators 0 s cp rest hq, hstep]⟩
              · have hBs : measureB rank s = rank cp.varName + 1 := by
                  unfold measureB pendingQ
                  rw [hq, List.dropWhile_cons, if_neg (by rw [hsk]; exact Bool.false_ne_true)]
                have hBs1 : measureB rank s1 < rank cp.varName + 1 := by
                  obtain ⟨hdrop, hne⟩ :=
                    dropWhile_append_of_mem_false (skippableB s) pref (cp :: rest) hex
                  have hpq1 : pendingQ s1 = pref.dropWhile (skippableB s) ++ (cp :: rest) := by
                    rw [hs1eq]
                    show (pref ++ cp :: rest).dropWhile (skippableB s) = _
                    exact hdrop
                  cases hdq : pref.dropWhile (skippableB s) with
                  | nil => exact absurd hdq hne
                  | cons q qs =>
                    have hqmem : q ∈ pref := by
                      have hsub := List.IsSuffix.subset
                        (List.dropWhile_suffix (l := pref) (skippableB s))
                      refine hsub ?_
                      rw [hdq]
                      exact List.mem_cons_self q qs
                    obtain ⟨d, hd, hqd⟩ := hmem q hqmem
                    have hqvar : q.varName = d := hyps.hvar d q hqd
                    have hdmem : d ∈ cp.depNames := (List.mem_filter.mp hd).1
                    have hrank := hyps.hrank cp.varName cp d hcpbpm hdmem
                    unfold measureB
                    rw [hpq1, hdq]
                    show rank q.varName + 1 < rank cp.varName + 1
                    rw [hqvar]
                    omega
                have hsInv1 : StateInv bpm s1 := by
                  constructor
                  · intro p hp
                    rw [hs1eq] at hp
                    have hp2 : p ∈ pref ++ cp :: rest := hp
                    rw [List.mem_append] at hp2
                    cases hp2 with
                    | inl hp2 =>
                      obtain ⟨d, _, hpd⟩ := hmem p hp2
                      rw [hyps.hvar d p hpd]
                      exact hpd
                    | inr hp2 =>
                      refine hs.1 p ?_
                      rw [hq]
                      exact hp2
                  · rw [hs1eq]
                    exact hs.2
                have hA1 : measureA bpl s1 = measureA bpl s := by
                  rw [hs1eq]
                  rfl
                obtain ⟨n, r, hr⟩ := ihb (measureC s1 + 1) s1 hsInv1
                  (by rw [hA1]; exact hA) (by omega) (Nat.lt_succ_self _)
                exact ⟨n + 1, r,
                  by rw [processLoop_cons bpm vcm validators n s cp rest hq, hstep]; exact hr⟩

/-- C8 amended: the work-list loop terminates (returns or raises within
finitely many iterations) on every input whose variable-dependency graph
admits a topological rank function - i.e. is acyclic, which successful
`ConfigSpec` construction guarantees through its cycle check - given the
structural well-formedness that `_init_providers` establishes
(`ProcHyps`) and the state invariant (`StateInv`).  The line-258
fail-fast check is what makes the dependency-push step productive: when
it passes, some provider of the unmet dependency has no outcome yet, so
the front of the queue strictly descends in rank until an invocation or
a raise happens. -/
theorem c8_amended_terminates_on_acyclic {Val : Type}
    (bpm : String → List (BoundProvider Val)) (vcm : String → List String)
    (validators : String → Option (Val → Except String Val))
    (bpl : List (BoundProvider Val)) (rank : String → Nat) (s : ProcState Val)
    (hyps : ProcHyps bpm bpl rank) (hs : StateInv bpm s) :
    ∃ n r, processRun bpm vcm validators bpl n s = some r := by
  obtain ⟨n, r, hr⟩ := processLoop_term bpm vcm validators bpl rank hyps
    (measureA bpl s + 1) (measureB rank s + 1) (measureC s + 1) s hs
    (Nat.lt_succ_self _) (Nat.lt_succ_self _) (Nat.lt_succ_self _)
  refine ⟨n, (match r.2 with | none => (finalPrune bpl r.1, none) | some e => (r.1, some e)), ?_⟩
  unfold processRun
  rw [hr]
  rfl

theorem cycInv_initC : CycInv initC := by
  refine ⟨rfl, rfl, rfl, ?_, ?_⟩
  · show ([pCv, pCw] : List (BoundProvider Int)) ≠ []
    simp
  · intro p hp
    have hq : initC.queue = [pCv, pCw] := rfl
    rw [hq] at hp
    simpa using hp

theorem cyc_step (s : ProcState Int) (cp : BoundProvider Int)
    (rest : List (BoundProvider Int)) (hInv : CycInv s) (hq : s.queue = cp :: rest) :
    ∃ s1, step bpmC vcmC validatorsC s cp rest = .stepped s1 ∧ CycInv s1 := by
  obtain ⟨hnvm, hprm, hnrm, hqne, hmem⟩ := hInv
  have hrestmem : ∀ p ∈ rest, p = pCv ∨ p = pCw := fun p hp =>
    hmem p (by rw [hq]; exact List.mem_cons_of_mem cp hp)
  have hcp := hmem cp (by rw [hq]; exact List.mem_cons_self cp rest)
  cases hcp with
  | inl hcp =>
    subst hcp
    have h1 : prmContains s pCv.id = false := by
      unfold prmContains
      rw [hprm]
      rfl
    have h2 : nvmContains s pCv.varName = false := by
      unfold nvmContains
      rw [hnvm]
      rfl
    have hw : nvmContains s "w" = false := by
      unfold nvmContains
      rw [hnvm]
      rfl
    have h3filter : pCv.depNames.filter (fun d => !(nvmContains s d)) = ["w"] := by
      show List.filter _ ["w"] = ["w"]
      simp [List.filter_cons, hw]
    have hcheck : ¬(((alookup "w" s.nrm).getD []).length ≥ (bpmC "w").length) := by
      rw [hnrm]
      decide
    refine ⟨{ s with queue := pCw :: pCv :: rest }, ?_, ?_⟩
    · have hpush : step bpmC vcmC validatorsC s pCv rest =
          pushDeps bpmC vcmC ["w"] { s with queue := pCv :: rest } := by
        simp only [step, h1, h2, h3filter, Bool.false_eq_true, if_false,
          List.isEmpty_cons]
      rw [hpush]
      simp only [pushDeps]
      rw [if_neg hcheck]
      rfl
    · refine ⟨hnvm, hprm, hnrm, ?_, ?_⟩
      · show pCw :: pCv :: rest ≠ []
        simp
      · intro p hp
        have hp2 : p ∈ pCw :: pCv :: rest := hp
        rcases List.mem_cons.mp hp2 with hp2 | hp2
        · exact Or.inr hp2
        · rcases List.mem_cons.mp hp2 with hp2 | hp2
          · exact Or.inl hp2
          · exact hrestmem p hp2
  | inr hcp =>
    subst hcp
    have h1 : prmContains s pCw.id = false := by
      unfold prmContains
      rw [hprm]
      rfl
    have h2 : nvmContains s pCw.varName = false := by
      unfold nvmContains
      rw [hnvm]
      rfl
    have hv : nvmContains s "v" = false := by
      unfold nvmContains
      rw [hnvm]
      rfl
    have h3filter : pCw.depNames.filter (fun d => !(nvmContains s d)) = ["v"] := by
      show List.filter _ ["v"] = ["v"]
      simp [List.filter_cons, hv]
    have hcheck : ¬(((alookup "v" s.nrm).getD []).length ≥ (bpmC "v").length) := by
      rw [hnrm]
      decide
    refine ⟨{ s with queue := pCv :: pCw :: rest }, ?_, ?_⟩
    · have hpush : step bpmC vcmC validatorsC s pCw rest =
          pushDeps bpmC vcmC ["v"] { s with queue := pCw :: rest } := by
        simp only [step, h1, h2, h3filter, Bool.false_eq_true, if_false,
          List.isEmpty_cons]
      rw [hpush]
      simp only [pushDeps]
      rw [if_neg hcheck]
      rfl
    · refine ⟨hnvm, hprm, hnrm, ?_, ?_⟩
      · show pCv :: pCw :: rest ≠ []
        simp
      · intro p hp
        have hp2 : p ∈ pCv :: pCw :: rest := hp
        rcases List.mem_cons.mp hp2 with hp2 | hp2
        · exact Or.inl hp2
        · rcases List.mem_cons.mp hp2 with hp2 | hp2
          · exact Or.inr hp2
          · exact hrestmem p hp2

/-- C8 counterexample: the claim says the work-list loop terminates for
EVERY input.  On the cyclic configuration (`v`'s provider depends on
`w` and vice versa) no outcome is ever recorded, the line-258 fail-fast
check never fires (both history counts stay 0), and the loop re-queues
the two providers forever: no amount of fuel completes it. -/
theorem c8_cyclic_run_diverges : cyclicRunDiverges := by
  unfold cyclicRunDiverges
  have main : ∀ (n : Nat) (s : ProcState Int), CycInv s →
      processLoop bpmC vcmC validatorsC n s = none := by
    intro n
    induction n with
    | zero => intro s _; rfl
    | succ n ih =>
      intro s hInv
      cases hq : s.queue with
      | nil => exact absurd hq hInv.2.2.2.1
      | cons cp rest =>
        obtain ⟨s1, hstep, hInv1⟩ := cyc_step s cp rest hInv hq
        rw [processLoop_cons bpmC vcmC validatorsC n s cp rest hq, hstep]
        exact ih s1 hInv1
  intro n
  exact main n initC cycInv_initC

theorem procHypsA : ProcHyps bpmA bplA (fun _ => 0) := by
  refine ⟨?_, ?_, ?_, ?_, ?_⟩
  · intro v p h
    unfold bpmA at h
    split at h
    · next hv =>
      simp only [List.mem_singleton] at h
      rw [h, hv]
      rfl
    · split at h
      · next hv =>
        simp only [List.mem_singleton] at h
        rw [h, hv]
        rfl
      · cases h
  · intro v p d hp hd
    unfold bpmA at hp
    split at hp
    · simp only [List.mem_singleton] at hp
      rw [hp] at hd
      simp [pAu] at hd
    · split at hp
      · simp only [List.mem_singleton] at hp
        rw [hp] at hd
        simp [cfgA, configProvider] at hd
      · cases hp
  · intro v p h
    unfold bpmA at h
    split at h
    · simp only [List.mem_singleton] at h
      rw [h]
      simp [bplA]
    · split at h
      · simp only [List.mem_singleton] at h
        rw [h]
        simp [bplA]
      · cases h
  · intro v w p q hp hq hid
    unfold bpmA at hp hq
    split at hp
    · next hv =>
      split at hq
      · next hw =>
        rw [hv, hw]
      · split at hq
        · next hw =>
          simp only [List.mem_singleton] at hp hq
          rw [hp, hq] at hid
          exact absurd hid (by decide)
        · cases hq
    · split at hp
      · next hv =>
        split at hq
        · next hw =>
          simp only [List.mem_singleton] at hp hq
          rw [hp, hq] at hid
          exact absurd hid (by decide)
        · split at hq
          · next hw =>
            rw [hv, hw]
          · cases hq
      · cases hp
  · intro v
    unfold bpmA
    split
    · simp
    · split
      · simp
      · simp

theorem stateInvA : StateInv bpmA initA := by
  constructor
  · intro p hp
    have hq : initA.queue = [pAu] := rfl
    rw [hq] at hp
    simp only [List.mem_singleton] at hp
    rw [hp]
    show pAu ∈ bpmA "u"
    unfold bpmA
    rw [if_pos rfl]
    exact List.mem_singleton.mpr rfl
  · intro d
    by_cases hd : d = "u"
    · subst hd
      decide
    · by_cases hc : d = "config"
      · subst hc
        decide
      · show (bpmA d).countP _ ≤ _
        unfold bpmA
        rw [if_neg hd, if_neg hc]
        simp

/-- C8 witness: the amended termination theorem applied to the concrete
acyclic configuration A (single dependency-free variable `u`), with the
constant-zero rank function. -/
theorem c8_witness :
    ∃ n r, processRun bpmA vcmA validatorsA bplA n initA = some r :=
  c8_amended_terminates_on_acyclic bpmA vcmA validatorsA bplA (fun _ => 0) initA
    procHypsA stateInvA

/-- C7 witness: the memoization theorem applied to scenario T's run,
whose invocation log is `[2, 3, 5, 6]`. -/
theorem c7_witness :
    TraceInv initT ∧
    traceOf (processRun bpmT vcmT validatorsT bplT 30 initT) = some [2, 3, 5, 6] ∧
    ([2, 3, 5, 6] : List Nat).Nodup := by
  have h1 : TraceInv initT := ⟨by decide, by decide⟩
  have h2 : traceOf (processRun bpmT vcmT validatorsT bplT 30 initT) =
      some [2, 3, 5, 6] := by decide
  exact ⟨h1, h2, c7_invoked_at_most_once bpmT vcmT validatorsT bplT 30 initT _ h1 h2⟩

/-! ## Leveling machinery for C9. -/

theorem mem_keysOf (l : DepMap) (x : String) :
    x ∈ keysOf l ↔ ∃ e ∈ l, e.1 = x := by
  induction l with
  | nil => simp [keysOf]
  | cons e es ih =>
    unfold keysOf at ih ⊢
    simp only [List.foldr_cons, Finset.mem_insert, ih]
    constructor
    · intro h
      rcases h with h | ⟨e2, he2, hx⟩
      · exact ⟨e, List.mem_cons_self e es, h.symm⟩
      · exact ⟨e2, List.mem_cons_of_mem e he2, hx⟩
    · intro ⟨e2, he2, hx⟩
      rcases List.mem_cons.mp he2 with he2 | he2
      · exact Or.inl (he2 ▸ hx.symm)
      · exact Or.inr ⟨e2, he2, hx⟩

theorem mem_curOf (rem : DepMap) (x : String) :
    x ∈ curOf rem ↔ ∃ e ∈ rem, e.1 = x ∧ e.2 = ∅ := by
  unfold curOf
  rw [show (rem.filter (fun e => e.2 = ∅)).foldr (fun e acc => insert e.1 acc) ∅ =
      keysOf (rem.filter (fun e => e.2 = ∅)) from rfl]
  rw [mem_keysOf]
  constructor
  · intro ⟨e, he, hx⟩
    rw [List.mem_filter] at he
    exact ⟨e, he.1, hx, by simpa using he.2⟩
  · intro ⟨e, he, hx, hd⟩
    exact ⟨e, List.mem_filter.mpr ⟨he, by simpa using hd⟩, hx⟩

theorem alookup_of_mem_nodup {β : Type} :
    ∀ (l : List (String × β)), (l.map Prod.fst).Nodup →
    ∀ k d, (k, d) ∈ l → alookup k l = some d := by
  intro l
  induction l with
  | nil => intro _ k d h; cases h
  | cons e es ih =>
    intro hnd k d h
    simp only [List.map_cons, List.nodup_cons] at hnd
    rcases List.mem_cons.mp h with h | h
    · rw [← h]
      simp [alookup]
    · have hne : ¬(e.1 = k) := by
        intro hc
        apply hnd.1
        rw [hc]
        exact List.mem_map_of_mem Prod.fst h
      simp [alookup, hne, ih hnd.2 k d h]

theorem mem_unionRet (x : String) :
    ∀ ret : List (Finset String),
    x ∈ unionRet ret ↔ ∃ k, k < ret.length ∧ x ∈ ret.getD k ∅ := by
  intro ret
  induction ret with
  | nil => simp [unionRet]
  | cons L t ih =>
    unfold unionRet at ih ⊢
    simp only [List.foldr_cons, Finset.mem_union, ih]
    constructor
    · intro h
      rcases h with h | ⟨k, hk, hx⟩
      · exact ⟨0, by simp, by simpa using h⟩
      · exact ⟨k + 1, by simpa using hk, by simpa using hx⟩
    · intro ⟨k, hk, hx⟩
      cases k with
      | zero => exact Or.inl (by simpa using hx)
      | succ k =>
        refine Or.inr ⟨k, ?_, by simpa using hx⟩
        simpa using hk

theorem unionRet_append_single (ret : List (Finset String)) (X : Finset String) :
    unionRet (ret ++ [X]) = unionRet ret ∪ X := by
  unfold unionRet
  induction ret with
  | nil => simp
  | cons L t ih =>
    simp only [List.cons_append, List.foldr_cons, ih]
    rw [Finset.union_assoc]

theorem getD_append_last (ret : List (Finset String)) (X : Finset String) :
    (ret ++ [X]).getD ret.length ∅ = X := by
  induction ret with
  | nil => simp
  | cons L t ih =>
    simp only [List.cons_append, List.length_cons, List.getD_cons_succ]
    exact ih

theorem getD_append_lt (ret : List (Finset String)) (X : Finset String)
    (j : Nat) (hj : j < ret.length) : (ret ++ [X]).getD j ∅ = ret.getD j ∅ :=
  List.getD_append ret [X] ∅ j hj

theorem getD_big_empty (ret : List (Finset String)) (j : Nat)
    (hj : ret.length ≤ j) : ret.getD j ∅ = ∅ :=
  List.getD_eq_default ret ∅ hj

theorem mem_valsUnion (dm : DepMap) :
    ∀ e ∈ dm, e.2 ⊆ valsUnion dm := by
  induction dm with
  | nil => intro e he; cases he
  | cons f fs ih =>
    intro e he x hx
    unfold valsUnion
    rw [List.foldr_cons, Finset.mem_union]
    rcases List.mem_cons.mp he with he | he
    · exact Or.inl (he ▸ hx)
    · exact Or.inr (ih e he hx)

theorem keysOf_step (rem : DepMap) (cur : Finset String) :
    keysOf ((rem.filter (fun e => !(decide (e.1 ∈ cur)))).map
      (fun e => (e.1, e.2 \ cur))) = keysOf rem \ cur := by
  ext x
  rw [mem_keysOf, Finset.mem_sdiff, mem_keysOf]
  constructor
  · intro ⟨e, he, hx⟩
    rw [List.mem_map] at he
    obtain ⟨e0, he0, heq⟩ := he
    rw [List.mem_filter] at he0
    have hx0 : e0.1 = x := by
      rw [← heq] at hx
      exact hx
    refine ⟨⟨e0, he0.1, hx0⟩, ?_⟩
    have := he0.2
    rw [Bool.not_eq_true', decide_eq_false_iff_not] at this
    rw [← hx0]
    exact this
  · intro ⟨⟨e, he, hx⟩, hnc⟩
    refine ⟨(e.1, e.2 \ cur), ?_, hx⟩
    rw [List.mem_map]
    refine ⟨e, ?_, rfl⟩
    rw [List.mem_filter]
    refine ⟨he, ?_⟩
    rw [Bool.not_eq_true', decide_eq_false_iff_not]
    rw [hx]
    exact hnc

theorem jitInv_step (dm remaining : DepMap) (ready : Finset String)
    (ret : List (Finset String)) (hInv : JitInv dm remaining ready ret)
    (_hcur : curOf remaining ≠ ∅) :
    JitInv dm
      ((remaining.filter (fun e => !(decide (e.1 ∈ curOf remaining)))).map
        (fun e => (e.1, e.2 \ curOf remaining)))
      ((ready ∪ curOf remaining) \
        ((ready ∪ curOf remaining).filter
          (fun r => ((curOf remaining).filter (fun c => r ∈ origDeps dm c)).Nonempty)))
      (ret ++ [(ready ∪ curOf remaining).filter
          (fun r => ((curOf remaining).filter (fun c => r ∈ origDeps dm c)).Nonempty)]) := by
  set cur := curOf remaining with hcurdef
  set curUsed := (ready ∪ cur).filter
    (fun r => (cur.filter (fun c => r ∈ origDeps dm c)).Nonempty) with hcudef
  set rem1 := (remaining.filter (fun e => !(decide (e.1 ∈ cur)))).map
    (fun e => (e.1, e.2 \ cur)) with hrem1def
  have hcursub : cur ⊆ keysOf remaining := by
    intro x hx
    rw [hcurdef, mem_curOf] at hx
    obtain ⟨e, he, h1, _⟩ := hx
    exact (mem_keysOf remaining x).mpr ⟨e, he, h1⟩
  have hkeys1 : keysOf rem1 = keysOf remaining \ cur := keysOf_step remaining cur
  have hdone1 : keysOf dm \ keysOf rem1 = (keysOf dm \ keysOf remaining) ∪ cur := by
    rw [hkeys1]
    ext x
    simp only [Finset.mem_sdiff, Finset.mem_union]
    constructor
    · rintro ⟨hdm, hn⟩
      by_cases hc : x ∈ cur
      · exact Or.inr hc
      · exact Or.inl ⟨hdm, fun hr => hn ⟨hr, hc⟩⟩
    · rintro (⟨hdm, hr⟩ | hc)
      · exact ⟨hdm, fun h => hr h.1⟩
      · exact ⟨hInv.hsub (hcursub hc), fun h => h.2 hc⟩
  have hNoSelf : ∀ c ∈ cur, origDeps dm c ⊆ keysOf dm \ keysOf remaining := by
    intro c hc
    rw [hcurdef, mem_curOf] at hc
    obtain ⟨e, he, h1, h2⟩ := hc
    have hent := hInv.hentry e he
    rw [h2, h1] at hent
    exact Finset.sdiff_eq_empty_iff_subset.mp hent.symm
  have hcurdone : ∀ x ∈ cur, x ∉ keysOf dm \ keysOf remaining := by
    intro x hx hd
    exact (Finset.mem_sdiff.mp hd).2 (hcursub hx)
  have hcusub : curUsed ⊆ ready := by
    intro r hr
    rw [hcudef] at hr
    obtain ⟨hr1, hne⟩ := Finset.mem_filter.mp hr
    obtain ⟨c, hc⟩ := hne
    obtain ⟨hc1, hc2⟩ := Finset.mem_filter.mp hc
    have hrdone : r ∈ keysOf dm \ keysOf remaining := hNoSelf c hc1 hc2
    rcases Finset.mem_union.mp hr1 with h | h
    · exact h
    · exact absurd hrdone (hcurdone r h)
  have hget : ∀ m, (ret ++ [curUsed]).getD m ∅ =
      if m < ret.length then ret.getD m ∅
      else if m = ret.length then curUsed else ∅ := by
    intro m
    by_cases h1 : m < ret.length
    · rw [getD_append_lt _ _ _ h1, if_pos h1]
    · by_cases h2 : m = ret.length
      · subst h2
        rw [getD_append_last]
        simp
      · rw [getD_big_empty, if_neg h1, if_neg h2]
        rw [List.length_append, List.length_singleton]
        omega
  have hlvldisj : ∀ k x, x ∈ ready → x ∉ ret.getD k ∅ := by
    intro k x hx hk
    by_cases hkl : k < ret.length
    · have : x ∈ unionRet ret := (mem_unionRet x ret).mpr ⟨k, hkl, hk⟩
      exact (Finset.disjoint_left.mp hInv.hrdisj) hx this
    · rw [getD_big_empty _ _ (le_of_not_lt hkl)] at hk
      exact absurd hk (Finset.not_mem_empty x)
  refine ⟨?_, ?_, ?_, ?_, ?_, ?_, ?_, ?_, ?_⟩
  · rw [hkeys1]
    intro x hx
    exact hInv.hsub (Finset.mem_sdiff.mp hx).1
  · intro e1 he1
    rw [hrem1def, List.mem_map] at he1
    obtain ⟨e, he, heq⟩ := he1
    rw [List.mem_filter] at he
    rw [← heq]
    show e.2 \ cur = origDeps dm e.1 \ (keysOf dm \ keysOf rem1)
    rw [hdone1, hInv.hentry e he.1, sdiff_sdiff]
    rfl
  · rw [unionRet_append_single, hdone1]
    ext x
    constructor
    · intro hx
      rcases Finset.mem_union.mp hx with hx | hx
      · obtain ⟨hru, _⟩ := Finset.mem_sdiff.mp hx
        rcases Finset.mem_union.mp hru with hr | hc
        · refine Finset.mem_union_left _ ?_
          rw [← hInv.hdone]
          exact Finset.mem_union_left _ hr
        · exact Finset.mem_union_right _ hc
      · rcases Finset.mem_union.mp hx with hur | hcu
        · refine Finset.mem_union_left _ ?_
          rw [← hInv.hdone]
          exact Finset.mem_union_right _ hur
        · refine Finset.mem_union_left _ ?_
          rw [← hInv.hdone]
          exact Finset.mem_union_left _ (hcusub hcu)
    · intro hx
      rcases Finset.mem_union.mp hx with hd | hc
      · rw [← hInv.hdone] at hd
        rcases Finset.mem_union.mp hd with hr | hur
        · by_cases hcu : x ∈ curUsed
          · exact Finset.mem_union_right _ (Finset.mem_union_right _ hcu)
          · exact Finset.mem_union_left _
              (Finset.mem_sdiff.mpr ⟨Finset.mem_union_left _ hr, hcu⟩)
        · exact Finset.mem_union_right _ (Finset.mem_union_left _ hur)
      · by_cases hcu : x ∈ curUsed
        · exact Finset.mem_union_right _ (Finset.mem_union_right _ hcu)
        · exact Finset.mem_union_left _
            (Finset.mem_sdiff.mpr ⟨Finset.mem_union_right _ hc, hcu⟩)
  · rw [unionRet_append_single]
    rw [Finset.disjoint_union_right]
    constructor
    · rw [Finset.disjoint_left]
      intro x hx hur
      have hx2 := (Finset.mem_sdiff.mp hx).1
      rcases Finset.mem_union.mp hx2 with hr | hc
      · exact (Finset.disjoint_left.mp hInv.hrdisj) hr hur
      · refine hcurdone x hc ?_
        rw [← hInv.hdone]
        exact Finset.mem_union_right _ hur
    · exact Finset.sdiff_disjoint
  · intro i j hij
    rw [hget i, hget j]
    by_cases hi1 : i < ret.length
    · by_cases hj1 : j < ret.length
      · rw [if_pos hi1, if_pos hj1]
        exact hInv.hpdisj i j hij
      · by_cases hj2 : j = ret.length
        · rw [if_pos hi1, if_neg hj1, if_pos hj2]
          rw [Finset.disjoint_left]
          intro x hx hxcu
          exact hlvldisj i x (hcusub hxcu) hx
        · rw [if_pos hi1, if_neg hj1, if_neg hj2]
          exact Finset.disjoint_empty_right _
    · by_cases hi2 : i = ret.length
      · rw [if_neg hi1, if_pos hi2]
        by_cases hj1 : j < ret.length
        · rw [if_pos hj1]
          rw [Finset.disjoint_left]
          intro x hxcu hx
          exact hlvldisj j x (hcusub hxcu) hx
        · by_cases hj2 : j = ret.length
          · exact absurd (hi2.trans hj2.symm) hij
          · rw [if_neg hj1, if_neg hj2]
            exact Finset.disjoint_empty_right _
      · rw [if_neg hi1, if_neg hi2]
        exact Finset.disjoint_empty_left _
  · intro j X hX Y hY
    rw [hget j] at hX
    by_cases hj1 : j < ret.length
    · rw [if_pos hj1] at hX
      obtain ⟨k, hk, hYk⟩ := hInv.hord j X hX Y hY
      refine ⟨k, hk, ?_⟩
      rw [hget k, if_pos (lt_trans hk hj1)]
      exact hYk
    · by_cases hj2 : j = ret.length
      · rw [if_neg hj1, if_pos hj2] at hX
        have hXr : X ∈ ready := hcusub hX
        have hYur := hInv.hready X hXr Y hY
        obtain ⟨k, hk, hYk⟩ := (mem_unionRet Y ret).mp hYur
        refine ⟨k, by omega, ?_⟩
        rw [hget k, if_pos hk]
        exact hYk
      · rw [if_neg hj1, if_neg hj2] at hX
        exact absurd hX (Finset.not_mem_empty X)
  · intro X hX Y hY
    rw [unionRet_append_single, Finset.mem_union]
    obtain ⟨hXu, hXnc⟩ := Finset.mem_sdiff.mp hX
    rcases Finset.mem_union.mp hXu with hr | hc
    · exact Or.inl (hInv.hready X hr Y hY)
    · have hYdone : Y ∈ keysOf dm \ keysOf remaining := hNoSelf X hc hY
      rw [← hInv.hdone] at hYdone
      rcases Finset.mem_union.mp hYdone with hYr | hYu
      · right
        rw [hcudef]
        refine Finset.mem_filter.mpr ⟨Finset.mem_union_left _ hYr, ?_⟩
        exact ⟨X, Finset.mem_filter.mpr ⟨hc, hY⟩⟩
      · exact Or.inl hYu
  · intro h
    exact absurd h (by simp)
  · intro _
    cases hret : ret with
    | nil =>
      simp only [hret, List.nil_append, List.getD_cons_zero]
      have hre : ready = ∅ := hInv.hinit hret
      refine Finset.subset_empty.mp ?_
      intro x hx
      have := hcusub hx
      rw [hre] at this
      exact this
    | cons L t =>
      rw [← hret]
      rw [hget 0, if_pos (by rw [hret]; simp)]
      exact hInv.hhead (by rw [hret]; simp)

theorem rem_step_length_lt (remaining : DepMap) (hcur : curOf remaining ≠ ∅) :
    ((remaining.filter (fun e => !(decide (e.1 ∈ curOf remaining)))).map
      (fun e => (e.1, e.2 \ curOf remaining))).length < remaining.length := by
  rw [List.length_map]
  obtain ⟨x, hx⟩ := Finset.nonempty_iff_ne_empty.mpr hcur
  rw [mem_curOf] at hx
  obtain ⟨e, he, hx1, hx2⟩ := hx
  refine List.length_filter_lt_length_iff_exists.mpr ⟨e, he, ?_⟩
  rw [hx1]
  have hmem := (mem_curOf remaining x).mpr ⟨e, he, hx1, hx2⟩
  simp [hmem]

theorem jitLoop_inv (dm : DepMap) :
    ∀ (n : Nat) (remaining : DepMap) (ready : Finset String)
      (ret : List (Finset String)),
    remaining.length < n → JitInv dm remaining ready ret →
    JitInv dm (jitLoop dm remaining ready ret).2.2
      (jitLoop dm remaining ready ret).2.1 (jitLoop dm remaining ready ret).1 ∧
    curOf (jitLoop dm remaining ready ret).2.2 = ∅ := by
  intro n
  induction n with
  | zero =>
    intro remaining _ _ hlen _
    exact absurd hlen (Nat.not_lt_zero _)
  | succ n ih =>
    intro remaining ready ret hlen hInv
    by_cases hcur : curOf remaining = ∅
    · have heq : jitLoop dm remaining ready ret = (ret, ready, remaining) := by
        rw [jitLoop]
        simp [hcur]
      rw [heq]
      exact ⟨hInv, hcur⟩
    · have heq : jitLoop dm remaining ready ret =
          jitLoop dm
            ((remaining.filter (fun e => !(decide (e.1 ∈ curOf remaining)))).map
              (fun e => (e.1, e.2 \ curOf remaining)))
            ((ready ∪ curOf remaining) \ ((ready ∪ curOf remaining).filter
              (fun r => ((curOf remaining).filter
                (fun c => r ∈ origDeps dm c)).Nonempty)))
            (ret ++ [(ready ∪ curOf remaining).filter
              (fun r => ((curOf remaining).filter
                (fun c => r ∈ origDeps dm c)).Nonempty)]) := by
        conv_lhs => rw [jitLoop]
        simp only [dif_neg hcur]
      rw [heq]
      refine ih _ _ _ ?_ (jitInv_step dm remaining ready ret hInv hcur)
      have := rem_step_length_lt remaining hcur
      omega

theorem jitInv_initial (dm : DepMap) (hnd : (dm.map Prod.fst).Nodup) :
    JitInv dm dm ∅ [] := by
  refine ⟨fun x hx => hx, ?_, ?_, ?_, ?_, ?_, ?_, fun _ => rfl, ?_⟩
  · intro e he
    rw [Finset.sdiff_self, Finset.sdiff_empty]
    unfold origDeps
    rw [alookup_of_mem_nodup dm hnd e.1 e.2 he]
    rfl
  · simp [unionRet, Finset.sdiff_self]
  · simp [unionRet]
  · intro i j _
    rw [getD_big_empty _ _ (by simp)]
    exact Finset.disjoint_empty_left _
  · intro j X hX
    rw [getD_big_empty _ _ (by simp)] at hX
    exact absurd hX (Finset.not_mem_empty X)
  · intro X hX
    exact absurd hX (Finset.not_mem_empty X)
  · intro h
    exact absurd rfl h

/-- C9: the display leveling is topologically valid - on every
dependency map (with distinct keys) on which `jit_toposort` succeeds,
each item and each of its dependencies appear in the produced levels,
and the dependency's level index is strictly below the dependent's; and
on the two-element cycle the function fails with the cycle error rather
than producing an ordering. -/
theorem c9_leveling_topologically_valid :
    (∀ (dm : DepMap) (levels : List (Finset String)),
      (dm.map Prod.fst).Nodup → jitToposort dm = .ok levels →
      ∀ X depsX Y, (X, depsX) ∈ dm → Y ∈ depsX →
        (∃ i, Y ∈ levels.getD i ∅) ∧ (∃ j, X ∈ levels.getD j ∅) ∧
        (∀ i j, Y ∈ levels.getD i ∅ → X ∈ levels.getD j ∅ → i < j)) ∧
    jitToposort cyc2 = .error .cycleErr := by
  constructor
  · intro dm levels hnd hok X depsX Y hmem hY
    have hne : dm ≠ [] := by
      intro h
      rw [h] at hmem
      cases hmem
    by_cases hex : valsUnion dm \ keysOf dm = ∅
    · have hval : jitToposort dm =
          (if (jitLoop dm dm ∅ []).2.2.isEmpty then
            Except.ok ((if (jitLoop dm dm ∅ []).2.1 = ∅ then (jitLoop dm dm ∅ []).1
              else (jitLoop dm dm ∅ []).1 ++ [(jitLoop dm dm ∅ []).2.1]).drop 1)
          else Except.error TopoErr.cycleErr) := by
        unfold jitToposort
        rw [if_neg (by simp [List.isEmpty_iff, hne]), if_pos hex]
      rw [hval] at hok
      obtain ⟨hInv, hcur0⟩ := jitLoop_inv dm (dm.length + 1) dm ∅ []
        (Nat.lt_succ_self _) (jitInv_initial dm hnd)
      by_cases hM : (jitLoop dm dm ∅ []).2.2.isEmpty = true
      · rw [if_pos hM] at hok
        have hMnil : (jitLoop dm dm ∅ []).2.2 = [] := List.isEmpty_iff.mp hM
        injection hok with hok
        have hdoneAll : (jitLoop dm dm ∅ []).2.1 ∪
            unionRet (jitLoop dm dm ∅ []).1 = keysOf dm := by
          have hd := hInv.hdone
          rw [hMnil] at hd
          rw [hd]
          rw [show keysOf ([] : DepMap) = ∅ from rfl, Finset.sdiff_empty]
        have hXkeys : X ∈ keysOf dm := (mem_keysOf dm X).mpr ⟨(X, depsX), hmem, rfl⟩
        have hYorig : Y ∈ origDeps dm X := by
          unfold origDeps
          rw [alookup_of_mem_nodup dm hnd X depsX hmem]
          exact hY
        have hYkeys : Y ∈ keysOf dm :=
          Finset.sdiff_eq_empty_iff_subset.mp hex
            (mem_valsUnion dm (X, depsX) hmem hY)
        have hretne : (jitLoop dm dm ∅ []).1 ≠ [] := by
          intro h
          have hre : (jitLoop dm dm ∅ []).2.1 = ∅ := hInv.hinit h
          have hkeq : keysOf dm = ∅ := by
            rw [← hdoneAll, h, hre]
            simp [unionRet]
          rw [hkeq] at hXkeys
          exact absurd hXkeys (Finset.not_mem_empty X)
        have hchar : ∀ m x, x ∈ (if (jitLoop dm dm ∅ []).2.1 = ∅ then (jitLoop dm dm ∅ []).1
              else (jitLoop dm dm ∅ []).1 ++ [(jitLoop dm dm ∅ []).2.1]).getD m ∅ ↔
            ((m < (jitLoop dm dm ∅ []).1.length ∧ x ∈ (jitLoop dm dm ∅ []).1.getD m ∅) ∨
             ((jitLoop dm dm ∅ []).2.1 ≠ ∅ ∧ m = (jitLoop dm dm ∅ []).1.length ∧
              x ∈ (jitLoop dm dm ∅ []).2.1)) := by
          intro m x
          by_cases hR : (jitLoop dm dm ∅ []).2.1 = ∅
          · rw [if_pos hR]
            constructor
            · intro h
              refine Or.inl ⟨?_, h⟩
              by_contra hlt
              rw [getD_big_empty _ _ (le_of_not_lt hlt)] at h
              exact absurd h (Finset.not_mem_empty x)
            · rintro (⟨_, h⟩ | ⟨hc, _, _⟩)
              · exact h
              · exact absurd hR hc
          · rw [if_neg hR]
            constructor
            · intro h
              by_cases h1 : m < (jitLoop dm dm ∅ []).1.length
              · rw [getD_append_lt _ _ _ h1] at h
                exact Or.inl ⟨h1, h⟩
              · by_cases h2 : m = (jitLoop dm dm ∅ []).1.length
                · subst h2
                  rw [getD_append_last] at h
                  exact Or.inr ⟨hR, rfl, h⟩
                · rw [getD_big_empty] at h
                  · exact absurd h (Finset.not_mem_empty x)
                  · rw [List.length_append, List.length_singleton]
                    omega
            · rintro (⟨h1, h⟩ | ⟨_, h2, h⟩)
              · rw [getD_append_lt _ _ _ h1]
                exact h
              · subst h2
                rw [getD_append_last]
                exact h
        have hcover : ∀ z, z ∈ keysOf dm →
            ∃ m, z ∈ (if (jitLoop dm dm ∅ []).2.1 = ∅ then (jitLoop dm dm ∅ []).1
              else (jitLoop dm dm ∅ []).1 ++ [(jitLoop dm dm ∅ []).2.1]).getD m ∅ := by
          intro z hz
          rw [← hdoneAll] at hz
          rcases Finset.mem_union.mp hz with hr | hu
          · have hRne : (jitLoop dm dm ∅ []).2.1 ≠ ∅ := by
              intro h
              rw [h] at hr
              exact absurd hr (Finset.not_mem_empty z)
            exact ⟨(jitLoop dm dm ∅ []).1.length,
              (hchar _ _).mpr (Or.inr ⟨hRne, rfl, hr⟩)⟩
          · obtain ⟨k, hk, hzk⟩ := (mem_unionRet z _).mp hu
            exact ⟨k, (hchar _ _).mpr (Or.inl ⟨hk, hzk⟩)⟩
        have hordL : ∀ i j,
            Y ∈ (if (jitLoop dm dm ∅ []).2.1 = ∅ then (jitLoop dm dm ∅ []).1
              else (jitLoop dm dm ∅ []).1 ++ [(jitLoop dm dm ∅ []).2.1]).getD i ∅ →
            X ∈ (if (jitLoop dm dm ∅ []).2.1 = ∅ then (jitLoop dm dm ∅ []).1
              else (jitLoop dm dm ∅ []).1 ++ [(jitLoop dm dm ∅ []).2.1]).getD j ∅ →
            i < j := by
          intro i j hYi hXj
          have hk : ∃ k < j, Y ∈ (jitLoop dm dm ∅ []).1.getD k ∅ := by
            rcases (hchar j X).mp hXj with ⟨hj1, hXr⟩ | ⟨_, hj2, hXr⟩
            · exact hInv.hord j X hXr Y hYorig
            · have hYu := hInv.hready X hXr Y hYorig
              obtain ⟨k, hkl, hYk⟩ := (mem_unionRet Y _).mp hYu
              exact ⟨k, by omega, hYk⟩
          obtain ⟨k, hkj, hYk⟩ := hk
          have hklen : k < (jitLoop dm dm ∅ []).1.length := by
            by_contra h
            rw [getD_big_empty _ _ (le_of_not_lt h)] at hYk
            exact absurd hYk (Finset.not_mem_empty Y)
          rcases (hchar i Y).mp hYi with ⟨hi1, hYr⟩ | ⟨_, hi2, hYr⟩
          · by_cases hik : i = k
            · omega
            · have := Finset.disjoint_left.mp (hInv.hpdisj i k hik) hYr
              exact absurd hYk this
          · have hYu : Y ∈ unionRet (jitLoop dm dm ∅ []).1 :=
              (mem_unionRet Y _).mpr ⟨k, hklen, hYk⟩
            exact absurd hYu (Finset.disjoint_left.mp hInv.hrdisj hYr)
        have hL0 : (if (jitLoop dm dm ∅ []).2.1 = ∅ then (jitLoop dm dm ∅ []).1
            else (jitLoop dm dm ∅ []).1 ++ [(jitLoop dm dm ∅ []).2.1]).getD 0 ∅ = ∅ := by
          have h0 : (jitLoop dm dm ∅ []).1.getD 0 ∅ = ∅ := hInv.hhead hretne
          by_cases hR : (jitLoop dm dm ∅ []).2.1 = ∅
          · rw [if_pos hR]
            exact h0
          · rw [if_neg hR, getD_append_lt _ _ _ (List.length_pos.mpr hretne)]
            exact h0
        have hdropm : ∀ m, levels.getD m ∅ =
            (if (jitLoop dm dm ∅ []).2.1 = ∅ then (jitLoop dm dm ∅ []).1
              else (jitLoop dm dm ∅ []).1 ++ [(jitLoop dm dm ∅ []).2.1]).getD (m + 1) ∅ := by
          intro m
          rw [← hok]
          cases hLc : (if (jitLoop dm dm ∅ []).2.1 = ∅ then (jitLoop dm dm ∅ []).1
              else (jitLoop dm dm ∅ []).1 ++ [(jitLoop dm dm ∅ []).2.1]) with
          | nil =>
            have hLne : (if (jitLoop dm dm ∅ []).2.1 = ∅ then (jitLoop dm dm ∅ []).1
                else (jitLoop dm dm ∅ []).1 ++ [(jitLoop dm dm ∅ []).2.1]) ≠ [] := by
              split
              · exact hretne
              · simp
            exact absurd hLc hLne
          | cons l0 ls =>
            simp
        refine ⟨?_, ?_, ?_⟩
        · obtain ⟨m, hm⟩ := hcover Y hYkeys
          cases m with
          | zero =>
            rw [hL0] at hm
            exact absurd hm (Finset.not_mem_empty Y)
          | succ m =>
            refine ⟨m, ?_⟩
            rw [hdropm m]
            exact hm
        · obtain ⟨m, hm⟩ := hcover X hXkeys
          cases m with
          | zero =>
            rw [hL0] at hm
            exact absurd hm (Finset.not_mem_empty X)
          | succ m =>
            refine ⟨m, ?_⟩
            rw [hdropm m]
            exact hm
        · intro i j hYi hXj
          rw [hdropm i] at hYi
          rw [hdropm j] at hXj
          have := hordL (i + 1) (j + 1) hYi hXj
          omega
      · rw [if_neg hM] at hok
        cases hok
    · have : jitToposort dm = .error .keyErr := by
        unfold jitToposort
        rw [if_neg (by simp [List.isEmpty_iff, hne]), if_neg hex]
      rw [this] at hok
      cases hok
  · have hloop : jitLoop cyc2 cyc2 ∅ [] = ([], ∅, cyc2) := by
      rw [jitLoop]
      simp only [dif_pos (show curOf cyc2 = ∅ by decide)]
    unfold jitToposort
    rw [if_neg (by decide), if_pos (by decide), hloop]
    rfl

/-- Witness for the C9 theorem: on the two-element map where `b` depends
on `a`, `jit_toposort` succeeds with levels `[{a}, {b}]`, and the
theorem applies to place `a` strictly before `b`. -/
theorem c9_witness :
    (List.map Prod.fst dmW).Nodup ∧ jitToposort dmW = .ok [{"a"}, {"b"}] ∧
    ("b", ({"a"} : Finset String)) ∈ dmW ∧ "a" ∈ ({"a"} : Finset String) ∧
    ((∃ i, "a" ∈ [({"a"} : Finset String), {"b"}].getD i ∅) ∧
     (∃ j, "b" ∈ [({"a"} : Finset String), {"b"}].getD j ∅) ∧
     (∀ i j, "a" ∈ [({"a"} : Finset String), {"b"}].getD i ∅ →
       "b" ∈ [({"a"} : Finset String), {"b"}].getD j ∅ → i < j)) := by
  have s3 : jitLoop dmW [] {"b"} [∅, {"a"}] = ([∅, {"a"}], {"b"}, []) := by
    rw [jitLoop]
    simp [show curOf ([] : DepMap) = ∅ from rfl]
  have s2 : jitLoop dmW [("b", ∅)] {"a"} [∅] = ([∅, {"a"}], {"b"}, []) := by
    conv_lhs => rw [jitLoop]
    simp only [dif_neg (show ¬(curOf [("b", (∅ : Finset String))] = ∅) from by decide)]
    exact s3
  have s1 : jitLoop dmW dmW ∅ [] = ([∅, {"a"}], {"b"}, []) := by
    conv_lhs => rw [jitLoop]
    simp only [dif_neg (show ¬(curOf dmW = ∅) from by decide)]
    exact s2
  have hok : jitToposort dmW = .ok [{"a"}, {"b"}] := by
    unfold jitToposort
    rw [if_neg (by decide), if_pos (by decide), s1]
    decide
  refine ⟨by decide, hok, by decide, by decide, ?_⟩
  exact c9_leveling_topologically_valid.1 dmW [{"a"}, {"b"}] (by decide) hok
    "b" {"a"} "a" (by decide) (by decide)

end Strata
